import Mathlib

/-!
Verification of the sql4go caching layer (pkg/redis/manager.go and
pkg/repository/interface.go) against its natural-language specification.

The Redis backend is modelled as a partial map from byte-string keys to
entries (a Redis value together with its TTL).  Byte strings are modelled
as `List Nat` (one element per byte); Go string literals are injected via
`asc`.  Keys and stored values are byte strings; Redis set values (used by
the dependency index) are lists of byte strings.  gzip is external library
code and is modelled as an abstract compressor/decompressor pair.
-/

namespace Sql4go

/-- Byte strings (Go `[]byte` / Redis binary-safe strings). -/
abbrev Bytes := List Nat

/-- ASCII bytes of a Go string literal. -/
def asc (s : String) : Bytes := s.data.map Char.toNat

/-- The byte `':'` (the cache key separator used throughout manager.go). -/
def colon : Nat := 58

/-- Decimal digits, fuelled so that the definition is structurally
recursive (and hence computes inside the kernel); `fuel` bounds the number
of digits. -/
def decReprAux : Nat → Nat → Bytes
  | 0, _ => []
  | fuel + 1, n =>
    if n < 10 then [48 + n] else decReprAux fuel (n / 10) ++ [48 + n % 10]

/-- Decimal representation of a natural number, as produced by
`fmt.Sprintf("%d", n)` / `strconv.Itoa`. -/
def decRepr (n : Nat) : Bytes := decReprAux (n + 1) n

theorem decReprAux_of_lt : ∀ (f₁ f₂ n : Nat), n < f₁ → n < f₂ →
    decReprAux f₁ n = decReprAux f₂ n := by
  intro f₁
  induction f₁ with
  | zero => intro f₂ n h; omega
  | succ f ih =>
    intro f₂ n h₁ h₂
    cases f₂ with
    | zero => omega
    | succ g =>
      rw [decReprAux, decReprAux]
      by_cases h : n < 10
      · simp [h]
      · have hd : n / 10 < n := Nat.div_lt_self (by omega) (by omega)
        rw [ih g (n / 10) (by omega) (by omega)]

theorem decRepr_eq (n : Nat) :
    decRepr n = if n < 10 then [48 + n] else decRepr (n / 10) ++ [48 + n % 10] := by
  rw [decRepr, decReprAux]
  by_cases h : n < 10
  · simp [h]
  · have hd : n / 10 < n := Nat.div_lt_self (by omega) (by omega)
    rw [if_neg h, if_neg h, decRepr,
      decReprAux_of_lt n (n / 10 + 1) (n / 10) (by omega) (by omega)]

/-- Reading decimal digits back, digit by digit (the core of `strconv.Atoi`). -/
def readNat (acc : Nat) (l : Bytes) : Nat :=
  l.foldl (fun a d => a * 10 + (d - 48)) acc

/-- Model of `strconv.Atoi` restricted to the unsigned decimal strings that
this codebase produces (sign handling is irrelevant here: the only parsed
inputs are chunk counts printed with `%d`). -/
def atoi (l : Bytes) : Option Nat :=
  if l = [] then none
  else if l.all (fun d => 48 ≤ d && d ≤ 57) then some (readNat 0 l)
  else none

theorem decRepr_digits (n : Nat) : ∀ d ∈ decRepr n, 48 ≤ d ∧ d ≤ 57 := by
  induction n using Nat.strong_induction_on with
  | _ n ih =>
    intro d hd
    rw [decRepr_eq] at hd
    by_cases h : n < 10
    · simp only [h, if_true, List.mem_singleton] at hd
      omega
    · simp only [h, if_false, List.mem_append, List.mem_singleton] at hd
      rcases hd with hd | hd
      · exact ih (n / 10) (Nat.div_lt_self (by omega) (by omega)) d hd
      · have := Nat.mod_lt n (y := 10) (by omega)
        omega

theorem decRepr_ne_nil (n : Nat) : decRepr n ≠ [] := by
  rw [decRepr_eq]
  by_cases h : n < 10 <;> simp [h]

theorem readNat_append (acc : Nat) (a : Bytes) (d : Nat) :
    readNat acc (a ++ [d]) = readNat acc a * 10 + (d - 48) := by
  simp [readNat, List.foldl_append]

theorem readNat_decRepr (n : Nat) : readNat 0 (decRepr n) = n := by
  induction n using Nat.strong_induction_on with
  | _ n ih =>
    rw [decRepr_eq]
    by_cases h : n < 10
    · simp [h, readNat]
    · simp only [h, if_false]
      rw [readNat_append, ih (n / 10) (Nat.div_lt_self (by omega) (by omega))]
      omega

theorem atoi_decRepr (n : Nat) : atoi (decRepr n) = some n := by
  unfold atoi
  rw [if_neg (decRepr_ne_nil n), if_pos, readNat_decRepr]
  rw [List.all_eq_true]
  intro d hd
  have := decRepr_digits n d hd
  simp only [Bool.and_eq_true, decide_eq_true_eq]
  omega

theorem decRepr_injective : Function.Injective decRepr := by
  intro m n h
  have := readNat_decRepr m
  rw [h, readNat_decRepr] at this
  omega

theorem colon_not_mem_decRepr (n : Nat) : colon ∉ decRepr n := by
  intro h
  have := decRepr_digits n colon h
  simp [colon] at this

/-- Model of `strings.Split(s, ":")` over byte strings: split on every
occurrence of `':'`; `Split("", ":") = [""]`. -/
def splitColon : Bytes → List Bytes
  | [] => [[]]
  | c :: rest =>
    match splitColon rest with
    | [] => [[]]
    | r :: rs => if c = colon then [] :: r :: rs else (c :: r) :: rs

theorem splitColon_ne_nil (l : Bytes) : splitColon l ≠ [] := by
  cases l with
  | nil => simp [splitColon]
  | cons c rest =>
    rw [splitColon]
    match h : splitColon rest with
    | [] => simp
    | r :: rs => by_cases hc : c = colon <;> simp [hc]

theorem splitColon_no_sep (l : Bytes) (h : colon ∉ l) : splitColon l = [l] := by
  induction l with
  | nil => rfl
  | cons c rest ih =>
    rw [splitColon]
    have hc : c ≠ colon := fun hcc => h (hcc ▸ List.mem_cons_self c rest)
    rw [ih (fun hm => h (List.mem_cons_of_mem c hm))]
    simp [hc]

theorem splitColon_append (a b : Bytes) (h : colon ∉ a) :
    splitColon (a ++ colon :: b) = a :: splitColon b := by
  induction a with
  | nil =>
    rw [List.nil_append, splitColon]
    match hb : splitColon b with
    | [] => exact absurd hb (splitColon_ne_nil b)
    | r :: rs => simp
  | cons c rest ih =>
    have hc : c ≠ colon := fun hcc => h (hcc ▸ List.mem_cons_self c rest)
    rw [List.cons_append, splitColon,
      ih (fun hm => h (List.mem_cons_of_mem c hm))]
    simp [hc]

/-! ## The Redis backend model -/

/-- A Redis value: a binary string or a set of binary strings. -/
inductive RVal
  | str (v : Bytes)
  | set (members : List Bytes)
deriving DecidableEq

/-- A stored entry: the value plus its TTL (`none` = no expiry). TTLs are
`time.Duration` values, modelled as `Int`. -/
structure Entry where
  val : RVal
  ttl : Option Int
deriving DecidableEq

/-- The backend keyspace: a partial map from keys to entries. -/
abbrev Store := Bytes → Option Entry

/-- Point update of the keyspace. -/
def upd (s : Store) (k : Bytes) (e : Option Entry) : Store :=
  fun k' => if k' = k then e else s k'

/-- `LargeValueConfig` from pkg/redis (config source). Fields are Go `int`s. -/
structure LargeValueConfig where
  maxValueSize : Int
  chunkSize : Int
  compressThreshold : Int
  enableCompression : Bool
  enableChunking : Bool

/-- The slice of `redis.Config` that the modelled operations consult. -/
structure Config where
  enabled : Bool
  defaultTTL : Int
  largeValue : LargeValueConfig

/-- `getLargeValueConfig`: large-value settings with fallback to defaults. -/
def getLargeValueConfig (cfg : Config) : Nat × Nat × Nat × Bool × Bool :=
  let c := cfg.largeValue
  ( if c.maxValueSize ≤ 0 then 1024 * 1024 * 10 else c.maxValueSize.toNat,
    if c.chunkSize ≤ 0 then 1024 * 1024 * 2 else c.chunkSize.toNat,
    if c.compressThreshold ≤ 0 then 1024 * 100 else c.compressThreshold.toNat,
    c.enableCompression,
    c.enableChunking )

/-- Errors of the modelled manager operations (sentinel errors plus the
`fmt.Errorf` failure cases that the functions construct). -/
inductive CErr
  | cacheDisabled
  | keyNotFound
  | wrongType
  | tooLarge (n mx : Nat)
  | invalidMeta (m : Bytes)
  | invalidCount (m : Bytes)
  | chunkError (i : Nat)
  | decompressError
deriving DecidableEq

/-- `checkClient`: cache must be enabled (the client, once initialized by
`NewManager`, is assumed non-nil). -/
def checkClient (cfg : Config) : Option CErr :=
  if cfg.enabled then none else some .cacheDisabled

/-- gzip (external library code): an abstract compressor/decompressor pair.
`decomp` returns `none` when the input is not a valid compressed stream. -/
structure Gzip where
  comp : Bytes → Bytes
  decomp : Bytes → Option Bytes

/-- Raw client `SET key value ttl`. -/
def rSet (s : Store) (k v : Bytes) (ttl : Int) : Store :=
  upd s k (some ⟨.str v, some ttl⟩)

/-- Raw client `DEL key`. -/
def rDel (s : Store) (k : Bytes) : Store :=
  upd s k none

/-- Raw client `SADD key member`: errors with WRONGTYPE on a string value;
creates the set (with no expiry) when the key is absent. -/
def rSAdd (s : Store) (k m : Bytes) : Except CErr Store :=
  match s k with
  | none => .ok (upd s k (some ⟨.set [m], none⟩))
  | some en =>
    match en.val with
    | .str _ => .error .wrongType
    | .set l => .ok (upd s k (some ⟨.set (if m ∈ l then l else l ++ [m]), en.ttl⟩))

/-- Raw client `EXPIRE key ttl`: no-op when the key is absent. -/
def rExpire (s : Store) (k : Bytes) (t : Int) : Store :=
  match s k with
  | none => s
  | some en => upd s k (some ⟨en.val, some t⟩)

/-- Raw client `SMEMBERS key`: the empty list for an absent key, WRONGTYPE
for a string value. -/
def rSMembers (s : Store) (k : Bytes) : Except CErr (List Bytes) :=
  match s k with
  | none => .ok []
  | some en =>
    match en.val with
    | .str _ => .error .wrongType
    | .set l => .ok l

/-- A pipelined command (`pipe.Set`, `pipe.SAdd`, `pipe.Expire`). -/
inductive PCmd
  | pset (k v : Bytes) (ttl : Int)
  | psadd (k m : Bytes)
  | pexpire (k : Bytes) (t : Int)

/-- One step of `pipe.Exec`: the command is applied to the store; a failing
`SAdd` leaves the store unchanged for that command but the remaining
commands still execute; the first error is reported. -/
def pExecStep (st : Option CErr × Store) (c : PCmd) : Option CErr × Store :=
  match c with
  | .pset k v t => (st.1, rSet st.2 k v t)
  | .pexpire k t => (st.1, rExpire st.2 k t)
  | .psadd k m =>
    match rSAdd st.2 k m with
    | .ok s' => (st.1, s')
    | .error e => (st.1 <|> some e, st.2)

/-- `pipe.Exec`: run all queued commands, reporting the first error. -/
def pExec (s : Store) (cmds : List PCmd) : Option CErr × Store :=
  cmds.foldl pExecStep (none, s)

/-! ## Manager operations (pkg/redis/manager.go) -/

/-- `Manager.Get`. -/
def mGet (cfg : Config) (s : Store) (k : Bytes) : Except CErr Bytes :=
  match checkClient cfg with
  | some e => .error e
  | none =>
    match s k with
    | none => .error .keyNotFound
    | some en =>
      match en.val with
      | .str v => .ok v
      | .set _ => .error .wrongType

/-- `Manager.Set` (stores with the default TTL). -/
def mSet (cfg : Config) (s : Store) (k v : Bytes) : Except CErr Unit × Store :=
  match checkClient cfg with
  | some e => (.error e, s)
  | none => (.ok (), rSet s k v cfg.defaultTTL)

/-- `Manager.SetWithTTL`. -/
def mSetWithTTL (cfg : Config) (s : Store) (k v : Bytes) (ttl : Int) :
    Except CErr Unit × Store :=
  match checkClient cfg with
  | some e => (.error e, s)
  | none => (.ok (), rSet s k v ttl)

/-- `Manager.DeleteKeys`. -/
def mDeleteKeys (cfg : Config) (s : Store) (ks : List Bytes) :
    Except CErr Unit × Store :=
  match checkClient cfg with
  | some e => (.error e, s)
  | none => (.ok (), ks.foldl rDel s)

/-- The dependency-set key `"sql4go:deps:<entityType>:<entityID>"`
(`cacheKeyPrefix`, `cacheDependencyPrefix` and `%v` of the entity id). -/
def depKeyOf (entityType entityID : Bytes) : Bytes :=
  asc "sql4go" ++ colon :: asc "deps" ++ colon :: entityType ++ colon :: entityID

/-- The metadata key `key + "_internal:meta"` (`cacheMetadataSuffix`). -/
def metaKeyOf (key : Bytes) : Bytes :=
  key ++ asc "_internal:meta"

/-- The chunk key `key + "_internal:chunk" + ":" + i` (`cacheChunkPrefix`). -/
def chunkKeyOf (key : Bytes) (i : Nat) : Bytes :=
  key ++ asc "_internal:chunk" ++ colon :: decRepr i

/-- `fmt.Sprintf("%t", b)`. -/
def ascBool (b : Bool) : Bytes :=
  if b then asc "true" else asc "false"

/-- `fmt.Sprintf("single:%t:1", compressed)`. -/
def metaSingleVal (compressed : Bool) : Bytes :=
  asc "single" ++ colon :: ascBool compressed ++ colon :: asc "1"

/-- `fmt.Sprintf("chunked:%t:%d", compressed, chunkCount)`. -/
def metaChunkedVal (compressed : Bool) (count : Nat) : Bytes :=
  asc "chunked" ++ colon :: ascBool compressed ++ colon :: decRepr count

/-- `data[start:end]` with `start = i*chunkSize`,
`end = min (start+chunkSize) (len data)` — the slice stored for chunk `i`. -/
def sliceGo (data : Bytes) (chunkSize i : Nat) : Bytes :=
  let start := i * chunkSize
  let stop := min (start + chunkSize) data.length
  (data.drop start).take (stop - start)

/-- `Manager.AddDependency`: `SADD` the cache key into the entity's
dependency set, then refresh the set's TTL to `DefaultTTL*2` (expire
errors are only recorded in metrics). -/
def AddDependency (cfg : Config) (s : Store) (entityType entityID cacheKey : Bytes) :
    Except CErr Unit × Store :=
  match checkClient cfg with
  | some e => (.error e, s)
  | none =>
    match rSAdd s (depKeyOf entityType entityID) cacheKey with
    | .error e => (.error e, s)
    | .ok s1 => (.ok (), rExpire s1 (depKeyOf entityType entityID) (cfg.defaultTTL * 2))

/-- The pipelined commands registering one cache key under a list of
`(entityType, ids)` dependencies. -/
def depCmds (cfg : Config) (dependencies : List (Bytes × List Bytes)) (cacheKey : Bytes) :
    List PCmd :=
  dependencies.flatMap fun p =>
    p.2.flatMap fun id =>
      [PCmd.psadd (depKeyOf p.1 id) cacheKey,
       PCmd.pexpire (depKeyOf p.1 id) (cfg.defaultTTL * 2)]

/-- `Manager.AddMultipleDependencies` (single pipeline). -/
def AddMultipleDependencies (cfg : Config) (s : Store)
    (dependencies : List (Bytes × List Bytes)) (cacheKey : Bytes) :
    Except CErr Unit × Store :=
  match checkClient cfg with
  | some e => (.error e, s)
  | none =>
    let r := pExec s (depCmds cfg dependencies cacheKey)
    (match r.1 with | some e => .error e | none => .ok (), r.2)

/-- `Manager.SetWithDependencies`: one pipeline that stores the value with
the default TTL and registers all dependencies. -/
def SetWithDependencies (cfg : Config) (s : Store) (cacheKey value : Bytes)
    (dependencies : List (Bytes × List Bytes)) : Except CErr Unit × Store :=
  match checkClient cfg with
  | some e => (.error e, s)
  | none =>
    let r := pExec s (PCmd.pset cacheKey value cfg.defaultTTL ::
      depCmds cfg dependencies cacheKey)
    (match r.1 with | some e => .error e | none => .ok (), r.2)

/-- `strings.HasPrefix` over byte strings. -/
def startsWithB (p v : Bytes) : Bool :=
  decide (v.take p.length = p)

/-- `Manager.isChunkedValue`: does the metadata value start with
`"chunked:"`? (`false` when no metadata is present). -/
def isChunkedValue (s : Store) (key : Bytes) : Except CErr Bool :=
  match s (metaKeyOf key) with
  | none => .ok false
  | some en =>
    match en.val with
    | .set _ => .error .wrongType
    | .str mv => .ok (startsWithB (asc "chunked:") mv)

/-- The compression step of `Manager.SetLarge` (lines 566–583): compress
when enabled and above the threshold, and keep the compressed form only
when it is strictly smaller. Returns `(processedValue, compressed)`. -/
def compressStep (gz : Gzip) (enableCompression : Bool) (compressThreshold : Nat)
    (value : Bytes) : Bytes × Bool :=
  if enableCompression ∧ value.length > compressThreshold then
    if (gz.comp value).length < value.length then (gz.comp value, true)
    else (value, false)
  else (value, false)

/-- `Manager.setChunked`: pipeline storing the chunk metadata and all
`⌈len/chunkSize⌉` chunks. -/
def setChunked (cfg : Config) (s : Store) (key data : Bytes) (compressed : Bool)
    (chunkSize : Nat) : Except CErr Unit × Store :=
  let chunkCount := (data.length + chunkSize - 1) / chunkSize
  let r := pExec s
    (PCmd.pset (metaKeyOf key) (metaChunkedVal compressed chunkCount) cfg.defaultTTL ::
      (List.range chunkCount).map fun i =>
        PCmd.pset (chunkKeyOf key i) (sliceGo data chunkSize i) cfg.defaultTTL)
  (match r.1 with | some e => .error e | none => .ok (), r.2)

/-- `Manager.setWithMetadata`: compressed values get a `"single:%t:1"`
metadata record alongside the data; uncompressed values are stored plainly
with no metadata. -/
def setWithMetadata (cfg : Config) (s : Store) (key data : Bytes)
    (compressed _chunked : Bool) : Except CErr Unit × Store :=
  if compressed then
    let r := pExec s
      [PCmd.pset (metaKeyOf key) (metaSingleVal compressed) cfg.defaultTTL,
       PCmd.pset key data cfg.defaultTTL]
    (match r.1 with | some e => .error e | none => .ok (), r.2)
  else
    mSet cfg s key data

/-- `Manager.SetLarge`: reject values above the maximum size, compress
opportunistically, chunk when the processed payload exceeds the chunk
size, otherwise store with single-value metadata. -/
def SetLarge (cfg : Config) (gz : Gzip) (s : Store) (key value : Bytes) :
    Except CErr Unit × Store :=
  match checkClient cfg with
  | some e => (.error e, s)
  | none =>
    let c := getLargeValueConfig cfg
    if value.length > c.1 then (.error (.tooLarge value.length c.1), s)
    else
      let pc := compressStep gz c.2.2.2.1 c.2.2.1 value
      if c.2.2.2.2 ∧ pc.1.length > c.2.1 then
        setChunked cfg s key pc.1 pc.2 c.2.1
      else
        setWithMetadata cfg s key pc.1 pc.2 false

/-- The chunk-retrieval loop of `Manager.getChunked`: read each chunk in
index order, failing on the first chunk that cannot be read. -/
def readChunkList (s : Store) (key : Bytes) : List Nat → Except CErr (List Bytes)
  | [] => .ok []
  | i :: is =>
    match s (chunkKeyOf key i) with
    | none => .error (.chunkError i)
    | some en =>
      match en.val with
      | .set _ => .error (.chunkError i)
      | .str v =>
        match readChunkList s key is with
        | .error e => .error e
        | .ok rest => .ok (v :: rest)

/-- `Manager.getChunked`: parse the `"chunked:%t:%d"` metadata, read all
chunks in index order and concatenate them. -/
def getChunked (s : Store) (key : Bytes) : Except CErr (Bytes × Bool) :=
  match s (metaKeyOf key) with
  | none => .error .keyNotFound
  | some en =>
    match en.val with
    | .set _ => .error .wrongType
    | .str mv =>
      let parts := splitColon mv
      if parts.length = 3 ∧ parts.getD 0 [] = asc "chunked" then
        match atoi (parts.getD 2 []) with
        | none => .error (.invalidCount mv)
        | some chunkCount =>
          match readChunkList s key (List.range chunkCount) with
          | .error e => .error e
          | .ok chunks => .ok (chunks.flatten, decide (parts.getD 1 [] = asc "true"))
      else .error (.invalidMeta mv)

/-- `Manager.getWithMetadata`: no metadata means a plain uncompressed read;
otherwise parse `"single:%t:1"` for the compressed flag. -/
def getWithMetadata (cfg : Config) (s : Store) (key : Bytes) :
    Except CErr (Bytes × Bool) :=
  match s (metaKeyOf key) with
  | none =>
    match mGet cfg s key with
    | .error e => .error e
    | .ok v => .ok (v, false)
  | some en =>
    match en.val with
    | .set _ => .error .wrongType
    | .str mv =>
      let parts := splitColon mv
      if parts.length = 3 ∧ parts.getD 0 [] = asc "single" then
        match mGet cfg s key with
        | .error e => .error e
        | .ok v => .ok (v, decide (parts.getD 1 [] = asc "true"))
      else .error (.invalidMeta mv)

/-- `Manager.GetLarge`: dispatch on the chunked-value check, then
decompress when the metadata says the payload is compressed. -/
def GetLarge (cfg : Config) (gz : Gzip) (s : Store) (key : Bytes) :
    Except CErr Bytes :=
  match checkClient cfg with
  | some e => .error e
  | none =>
    match isChunkedValue s key with
    | .error e => .error e
    | .ok isCh =>
      match (if isCh then getChunked s key else getWithMetadata cfg s key) with
      | .error e => .error e
      | .ok dc =>
        if dc.2 then
          match gz.decomp dc.1 with
          | none => .error .decompressError
          | some d => .ok d
        else .ok dc.1

/-- `Manager.DeleteLarge`: delete the base key, the metadata key and (for
chunked values) every chunk key named by the metadata, in one batch. -/
def DeleteLarge (cfg : Config) (s : Store) (key : Bytes) :
    Except CErr Unit × Store :=
  match checkClient cfg with
  | some e => (.error e, s)
  | none =>
    match isChunkedValue s key with
    | .error e => (.error e, s)
    | .ok isCh =>
      let keysToDelete :=
        if isCh then
          [key] ++
            (match s (metaKeyOf key) with
             | some en =>
               match en.val with
               | .str mv =>
                 let parts := splitColon mv
                 if parts.length = 3 then
                   match atoi (parts.getD 2 []) with
                   | some chunkCount => (List.range chunkCount).map (chunkKeyOf key)
                   | none => []
                 else []
               | .set _ => []
             | none => []) ++
            [metaKeyOf key]
        else
          [key] ++ (if (s (metaKeyOf key)).isSome then [metaKeyOf key] else [])
      mDeleteKeys cfg s keysToDelete

/-- `Manager.InvalidateEntityDependencies`: read the dependency set,
`DeleteLarge` every member (continuing on error), then delete the set. -/
def InvalidateEntityDependencies (cfg : Config) (s : Store)
    (entityType entityID : Bytes) : Except CErr Unit × Store :=
  match checkClient cfg with
  | some e => (.error e, s)
  | none =>
    match rSMembers s (depKeyOf entityType entityID) with
    | .error e => (.error e, s)
    | .ok dependentKeys =>
      if dependentKeys = [] then (.ok (), s)
      else
        let s1 := dependentKeys.foldl (fun st k => (DeleteLarge cfg st k).2) s
        (.ok (), rDel s1 (depKeyOf entityType entityID))

/-! ## Key-scheme disjointness -/

theorem metaKeyOf_ne_base (key : Bytes) : metaKeyOf key ≠ key := by
  intro h
  have h2 := congrArg List.length h
  rw [metaKeyOf, List.length_append] at h2
  have h3 : (asc "_internal:meta").length = 14 := rfl
  omega

theorem chunkKeyOf_ne_base (key : Bytes) (i : Nat) : chunkKeyOf key i ≠ key := by
  intro h
  have h2 := congrArg List.length h
  rw [chunkKeyOf, List.length_append, List.length_append, List.length_cons] at h2
  omega

theorem chunkKeyOf_ne_metaKeyOf (key : Bytes) (i : Nat) :
    chunkKeyOf key i ≠ metaKeyOf key := by
  intro h
  have h2 := congrArg List.length h
  rw [chunkKeyOf, metaKeyOf, List.length_append, List.length_append,
    List.length_append, List.length_cons] at h2
  have h3 : (asc "_internal:meta").length = 14 := rfl
  have h4 : (asc "_internal:chunk").length = 15 := rfl
  have h5 : (decRepr i).length ≠ 0 := by
    simp [List.length_eq_zero, decRepr_ne_nil i]
  omega

theorem chunkKeyOf_inj (key : Bytes) {i j : Nat}
    (h : chunkKeyOf key i = chunkKeyOf key j) : i = j := by
  rw [chunkKeyOf, chunkKeyOf, List.append_assoc, List.append_assoc] at h
  have h2 := List.append_cancel_left h
  have h3 := List.append_cancel_left h2
  have h4 : colon :: decRepr i = colon :: decRepr j := h3
  exact decRepr_injective (List.cons_injective h4)

/-! ## Pipeline read-back lemmas -/

theorem pExec_pset_cons (s : Store) (k v : Bytes) (t : Int) (cs : List PCmd) :
    pExec s (PCmd.pset k v t :: cs) = pExec (rSet s k v t) cs := rfl

theorem rSet_get_same (s : Store) (k v : Bytes) (t : Int) :
    rSet s k v t k = some ⟨.str v, some t⟩ := by
  simp [rSet, upd]

theorem rSet_get_other (s : Store) (k v : Bytes) (t : Int) (k' : Bytes)
    (h : k' ≠ k) : rSet s k v t k' = s k' := by
  simp [rSet, upd, h]

/-- Reading an untouched key through a fold of `rSet`s. -/
theorem foldl_rSet_get_notin (l : List Nat) (f g : Nat → Bytes) (t : Int)
    (k : Bytes) (h : ∀ i ∈ l, f i ≠ k) :
    ∀ s : Store, (l.foldl (fun st i => rSet st (f i) (g i) t) s) k = s k := by
  induction l with
  | nil => intro s; rfl
  | cons i is ih =>
    intro s
    rw [List.foldl_cons, ih (fun a ha => h a (List.mem_cons_of_mem i ha)),
      rSet_get_other]
    exact fun hk => h i (List.mem_cons_self i is) hk.symm

/-- Reading a written key through a fold of `rSet`s over distinct keys. -/
theorem foldl_rSet_get_mem (l : List Nat) (f g : Nat → Bytes) (t : Int)
    (j : Nat) (hj : j ∈ l) (hinj : ∀ i ∈ l, f i = f j → i = j) :
    ∀ s : Store,
      (l.foldl (fun st i => rSet st (f i) (g i) t) s) (f j) =
        some ⟨.str (g j), some t⟩ := by
  induction l with
  | nil => cases hj
  | cons i is ih =>
    intro s
    rw [List.foldl_cons]
    by_cases hj' : j ∈ is
    · exact ih hj' (fun a ha => hinj a (List.mem_cons_of_mem i ha)) _
    · have hij : i = j := by
        rcases List.mem_cons.mp hj with h | h
        · exact h.symm
        · exact absurd h hj'
      subst hij
      rw [foldl_rSet_get_notin]
      · exact rSet_get_same _ _ _ _
      · intro a ha hfa
        exact hj' (hinj a (List.mem_cons_of_mem i ha) hfa ▸ ha)

/-- The store produced by `setChunked`'s pipeline. -/
def chunkedStore (cfg : Config) (s : Store) (key data : Bytes) (compressed : Bool)
    (chunkSize : Nat) : Store :=
  (List.range ((data.length + chunkSize - 1) / chunkSize)).foldl
    (fun st i => rSet st (chunkKeyOf key i) (sliceGo data chunkSize i) cfg.defaultTTL)
    (rSet s (metaKeyOf key) (metaChunkedVal compressed ((data.length + chunkSize - 1) / chunkSize))
      cfg.defaultTTL)

theorem pExec_map_pset (l : List Nat) (f g : Nat → Bytes) (t : Int) :
    ∀ s : Store,
      pExec s (l.map fun i => PCmd.pset (f i) (g i) t) =
        (none, l.foldl (fun st i => rSet st (f i) (g i) t) s) := by
  induction l with
  | nil => intro s; rfl
  | cons i is ih =>
    intro s
    rw [List.map_cons, pExec_pset_cons, ih, List.foldl_cons]

theorem setChunked_eq (cfg : Config) (s : Store) (key data : Bytes)
    (compressed : Bool) (chunkSize : Nat) :
    setChunked cfg s key data compressed chunkSize =
      (.ok (), chunkedStore cfg s key data compressed chunkSize) := by
  rw [setChunked, pExec_pset_cons, pExec_map_pset]
  rfl

/-! ## Chunk reassembly -/

theorem sliceGo_zero (data : Bytes) (cs : Nat) :
    sliceGo data cs 0 = data.take cs := by
  unfold sliceGo
  simp only [Nat.zero_mul, List.drop_zero, Nat.zero_add, Nat.sub_zero]
  rcases Nat.le_total cs data.length with h | h
  · rw [min_eq_left h]
  · rw [min_eq_right h, List.take_of_length_le h, List.take_of_length_le le_rfl]

theorem sliceGo_succ (data : Bytes) (cs i : Nat) :
    sliceGo data cs (i + 1) = sliceGo (data.drop cs) cs i := by
  unfold sliceGo
  simp only [List.drop_drop, List.length_drop]
  have h1 : i * cs + cs = cs + i * cs := by omega
  have h2 : (i + 1) * cs = i * cs + cs := by ring
  rw [h2, h1]
  congr 1
  have ha := Nat.le_total (cs + i * cs + cs) data.length
  omega

theorem flatten_slices (cs : Nat) (hcs : 0 < cs) :
    ∀ (n : Nat) (data : Bytes), (data.length + cs - 1) / cs = n →
      ((List.range n).map (sliceGo data cs)).flatten = data := by
  intro n
  induction n with
  | zero =>
    intro data h
    have hlt : data.length + cs - 1 < cs := by
      by_contra hge
      have h1 : 1 ≤ (data.length + cs - 1) / cs :=
        (Nat.one_le_div_iff hcs).mpr (by omega)
      rw [h] at h1
      exact absurd h1 (by omega)
    have hlen : data.length = 0 := by omega
    rw [List.length_eq_zero.mp hlen]
    rfl
  | succ n ih =>
    intro data h
    have hlen : 0 < data.length := by
      rcases Nat.eq_zero_or_pos data.length with h0 | h0
      · exfalso
        rw [h0] at h
        rw [Nat.div_eq_of_lt (by omega)] at h
        omega
      · exact h0
    have h1 : data.length + cs - 1 = (data.length - 1) + cs := by omega
    rw [h1, Nat.add_div_right _ hcs] at h
    have hq : (data.length - 1) / cs = n := by omega
    have hrec : ((data.drop cs).length + cs - 1) / cs = n := by
      rw [List.length_drop]
      rcases Nat.le_total cs data.length with hge | hlt
      · have h2 : data.length - cs + cs - 1 = (data.length - 1 - cs) + cs ∨
            data.length = cs := by omega
        rcases h2 with h2 | h2
        · rw [h2, Nat.add_div_right _ hcs]
          rcases Nat.lt_or_ge (data.length - 1) cs with h3 | h3
          · rw [Nat.div_eq_of_lt h3] at hq
            have h4 : data.length - 1 - cs = 0 := by omega
            rw [h4, Nat.zero_div]
            omega
          · have h5 := Nat.sub_add_cancel h3
            have h6 : (data.length - 1 - cs + cs) / cs = (data.length - 1 - cs) / cs + 1 :=
              Nat.add_div_right _ hcs
            rw [h5] at h6
            omega
        · rw [h2]
          simp only [Nat.sub_self, Nat.zero_add]
          rw [Nat.div_eq_of_lt (by omega)]
          rw [h2, Nat.div_eq_of_lt (by omega)] at hq
          omega
      · have h2 : data.length - cs = 0 := by omega
        rw [h2, Nat.zero_add, Nat.div_eq_of_lt (by omega)]
        rw [Nat.div_eq_of_lt (by omega)] at hq
        omega
    rw [List.range_succ_eq_map, List.map_cons, List.map_map, List.flatten_cons,
      sliceGo_zero]
    have hmap : (List.range n).map (sliceGo data cs ∘ Nat.succ) =
        (List.range n).map (sliceGo (data.drop cs) cs) := by
      apply List.map_congr_left
      intro i _
      exact sliceGo_succ data cs i
    rw [hmap, ih (data.drop cs) hrec, List.take_append_drop]

/-- `readChunkList` succeeds and returns the stored chunk values when every
requested chunk key holds a string. -/
theorem readChunkList_ok (s : Store) (key : Bytes) (g : Nat → Bytes)
    (tl : Nat → Option Int) (l : List Nat)
    (h : ∀ i ∈ l, s (chunkKeyOf key i) = some ⟨.str (g i), tl i⟩) :
    readChunkList s key l = .ok (l.map g) := by
  induction l with
  | nil => rfl
  | cons i is ih =>
    rw [readChunkList, h i (List.mem_cons_self i is),
      ih (fun a ha => h a (List.mem_cons_of_mem i ha))]
    rfl

/-! ## Metadata formatting and parsing -/

theorem colon_not_mem_ascBool (b : Bool) : colon ∉ ascBool b := by
  cases b <;> decide

theorem splitColon_metaChunkedVal (c : Bool) (n : Nat) :
    splitColon (metaChunkedVal c n) = [asc "chunked", ascBool c, decRepr n] := by
  have h : metaChunkedVal c n =
      asc "chunked" ++ colon :: (ascBool c ++ colon :: decRepr n) := by
    rw [metaChunkedVal, List.append_assoc, List.cons_append]
  rw [h, splitColon_append _ _ (by decide),
    splitColon_append _ _ (colon_not_mem_ascBool c),
    splitColon_no_sep _ (colon_not_mem_decRepr n)]

theorem splitColon_metaSingleVal (c : Bool) :
    splitColon (metaSingleVal c) = [asc "single", ascBool c, asc "1"] := by
  have h : metaSingleVal c =
      asc "single" ++ colon :: (ascBool c ++ colon :: asc "1") := by
    rw [metaSingleVal, List.append_assoc, List.cons_append]
  rw [h, splitColon_append _ _ (by decide),
    splitColon_append _ _ (colon_not_mem_ascBool c),
    splitColon_no_sep _ (by decide)]

theorem ascBool_eq_true_iff (c : Bool) :
    (decide (ascBool c = asc "true") = c) := by
  cases c <;> decide

theorem metaChunkedVal_eq_append (c : Bool) (n : Nat) :
    metaChunkedVal c n = asc "chunked:" ++ (ascBool c ++ colon :: decRepr n) := by
  rw [metaChunkedVal]
  rfl

theorem startsWithB_self_append (p r : Bytes) : startsWithB p (p ++ r) = true := by
  simp [startsWithB, List.take_left]

theorem isChunked_metaChunkedVal (c : Bool) (n : Nat) :
    startsWithB (asc "chunked:") (metaChunkedVal c n) = true := by
  rw [metaChunkedVal_eq_append]
  exact startsWithB_self_append _ _

theorem notChunked_metaSingleVal (c : Bool) :
    startsWithB (asc "chunked:") (metaSingleVal c) = false := by
  cases c <;> decide

/-! ## Read-back lemmas for each storage shape -/

theorem mGet_of_str (cfg : Config) (s : Store) (k v : Bytes) (t : Option Int)
    (hen : cfg.enabled = true) (h : s k = some ⟨.str v, t⟩) :
    mGet cfg s k = .ok v := by
  simp [mGet, checkClient, hen, h]

theorem chunkedStore_meta (cfg : Config) (s : Store) (key data : Bytes)
    (c : Bool) (cs : Nat) :
    chunkedStore cfg s key data c cs (metaKeyOf key) =
      some ⟨.str (metaChunkedVal c ((data.length + cs - 1) / cs)),
        some cfg.defaultTTL⟩ := by
  unfold chunkedStore
  rw [foldl_rSet_get_notin _ _ _ _ _ (fun i _ => chunkKeyOf_ne_metaKeyOf key i),
    rSet_get_same]

theorem chunkedStore_chunk (cfg : Config) (s : Store) (key data : Bytes)
    (c : Bool) (cs i : Nat) (hi : i < (data.length + cs - 1) / cs) :
    chunkedStore cfg s key data c cs (chunkKeyOf key i) =
      some ⟨.str (sliceGo data cs i), some cfg.defaultTTL⟩ := by
  unfold chunkedStore
  exact foldl_rSet_get_mem _ _ _ _ i (List.mem_range.mpr hi)
    (fun a _ h => chunkKeyOf_inj key h) _

theorem isChunkedValue_chunkedStore (cfg : Config) (s : Store)
    (key data : Bytes) (c : Bool) (cs : Nat) :
    isChunkedValue (chunkedStore cfg s key data c cs) key = .ok true := by
  rw [isChunkedValue, chunkedStore_meta]
  simp [isChunked_metaChunkedVal]

theorem getChunked_chunkedStore (cfg : Config) (s : Store) (key data : Bytes)
    (c : Bool) (cs : Nat) (hcs : 0 < cs) :
    getChunked (chunkedStore cfg s key data c cs) key = .ok (data, c) := by
  rw [getChunked, chunkedStore_meta]
  simp only [splitColon_metaChunkedVal]
  rw [if_pos (by simp [List.getD])]
  have h2 : ([asc "chunked", ascBool c,
      decRepr ((data.length + cs - 1) / cs)].getD 2 []) =
      decRepr ((data.length + cs - 1) / cs) := rfl
  have h1 : ([asc "chunked", ascBool c,
      decRepr ((data.length + cs - 1) / cs)].getD 1 []) = ascBool c := rfl
  rw [h2, h1, atoi_decRepr]
  have hr : readChunkList (chunkedStore cfg s key data c cs) key
      (List.range ((data.length + cs - 1) / cs)) =
      .ok ((List.range ((data.length + cs - 1) / cs)).map (sliceGo data cs)) :=
    readChunkList_ok _ _ (sliceGo data cs) (fun _ => some cfg.defaultTTL) _
      (fun i hi => chunkedStore_chunk cfg s key data c cs i (List.mem_range.mp hi))
  simp only [hr]
  rw [flatten_slices cs hcs _ data rfl, ascBool_eq_true_iff]

/-- The store written by the compressed-single branch of `setWithMetadata`. -/
def singleStore (cfg : Config) (s : Store) (key data : Bytes) : Store :=
  rSet (rSet s (metaKeyOf key) (metaSingleVal true) cfg.defaultTTL) key data
    cfg.defaultTTL

theorem setWithMetadata_compressed_eq (cfg : Config) (s : Store)
    (key data : Bytes) :
    setWithMetadata cfg s key data true false =
      (.ok (), singleStore cfg s key data) := rfl

theorem setWithMetadata_plain_eq (cfg : Config) (s : Store) (key data : Bytes)
    (hen : cfg.enabled = true) :
    setWithMetadata cfg s key data false false =
      (.ok (), rSet s key data cfg.defaultTTL) := by
  simp [setWithMetadata, mSet, checkClient, hen]

theorem singleStore_meta (cfg : Config) (s : Store) (key data : Bytes) :
    singleStore cfg s key data (metaKeyOf key) =
      some ⟨.str (metaSingleVal true), some cfg.defaultTTL⟩ := by
  rw [singleStore, rSet_get_other _ _ _ _ _ (metaKeyOf_ne_base key), rSet_get_same]

theorem isChunkedValue_singleStore (cfg : Config) (s : Store)
    (key data : Bytes) :
    isChunkedValue (singleStore cfg s key data) key = .ok false := by
  rw [isChunkedValue, singleStore_meta]
  simp [notChunked_metaSingleVal]

theorem getWithMetadata_singleStore (cfg : Config) (s : Store)
    (key data : Bytes) (hen : cfg.enabled = true) :
    getWithMetadata cfg (singleStore cfg s key data) key = .ok (data, true) := by
  rw [getWithMetadata, singleStore_meta]
  simp only [splitColon_metaSingleVal]
  rw [if_pos (by simp [List.getD])]
  have hb : singleStore cfg s key data key =
      some ⟨.str data, some cfg.defaultTTL⟩ := rSet_get_same _ _ _ _
  rw [mGet_of_str cfg _ key data (some cfg.defaultTTL) hen hb]
  have h1 : ([asc "single", ascBool true, asc "1"].getD 1 []) = ascBool true := rfl
  rw [h1, ascBool_eq_true_iff]

theorem getLarge_singleStore (cfg : Config) (gz : Gzip) (s : Store)
    (key data : Bytes) (hen : cfg.enabled = true) :
    GetLarge cfg gz (singleStore cfg s key data) key =
      (match gz.decomp data with
       | none => .error .decompressError
       | some d => .ok d) := by
  rw [GetLarge]
  simp only [checkClient, hen, if_true]
  rw [isChunkedValue_singleStore]
  simp only [getWithMetadata_singleStore cfg s key data hen]
  rfl

theorem getLarge_plainStore (cfg : Config) (gz : Gzip) (s : Store)
    (key data : Bytes) (hen : cfg.enabled = true)
    (hmeta : s (metaKeyOf key) = none) :
    GetLarge cfg gz (rSet s key data cfg.defaultTTL) key = .ok data := by
  have hm : rSet s key data cfg.defaultTTL (metaKeyOf key) = none := by
    rw [rSet_get_other _ _ _ _ _ (metaKeyOf_ne_base key), hmeta]
  have hg : getWithMetadata cfg (rSet s key data cfg.defaultTTL) key =
      .ok (data, false) := by
    rw [getWithMetadata, hm,
      mGet_of_str cfg _ key data (some cfg.defaultTTL) hen (rSet_get_same _ _ _ _)]
  rw [GetLarge]
  simp only [checkClient, hen, if_true]
  rw [isChunkedValue, hm]
  simp only [hg]
  rfl

theorem getLarge_chunkedStore (cfg : Config) (gz : Gzip) (s : Store)
    (key data : Bytes) (c : Bool) (cs : Nat) (hcs : 0 < cs)
    (hen : cfg.enabled = true) :
    GetLarge cfg gz (chunkedStore cfg s key data c cs) key =
      (if c then
        (match gz.decomp data with
         | none => .error .decompressError
         | some d => .ok d)
       else .ok data) := by
  rw [GetLarge]
  simp only [checkClient, hen, if_true]
  rw [isChunkedValue_chunkedStore]
  simp only [getChunked_chunkedStore cfg s key data c cs hcs]
  rfl

/-! ## SetLarge case structure -/

theorem getLargeValueConfig_chunkSize_pos (cfg : Config) :
    0 < (getLargeValueConfig cfg).2.1 := by
  unfold getLargeValueConfig
  by_cases h : cfg.largeValue.chunkSize ≤ 0
  · simp [h]
  · simp only [h, if_false]
    omega

theorem compressStep_cases (gz : Gzip) (enC : Bool) (thr : Nat) (v : Bytes) :
    (compressStep gz enC thr v = (gz.comp v, true) ∧
      (gz.comp v).length < v.length) ∨
    compressStep gz enC thr v = (v, false) := by
  unfold compressStep
  split_ifs with h1 h2
  · exact .inl ⟨rfl, h2⟩
  · exact .inr rfl
  · exact .inr rfl

theorem compressStep_snd_true (gz : Gzip) (enC : Bool) (thr : Nat) (v : Bytes)
    (h : (compressStep gz enC thr v).2 = true) :
    (compressStep gz enC thr v).1 = gz.comp v ∧ (gz.comp v).length < v.length := by
  rcases compressStep_cases gz enC thr v with ⟨he, hlt⟩ | he
  · rw [he]
    exact ⟨rfl, hlt⟩
  · rw [he] at h
    exact absurd h (by simp)

theorem compressStep_snd_false (gz : Gzip) (enC : Bool) (thr : Nat) (v : Bytes)
    (h : (compressStep gz enC thr v).2 = false) :
    (compressStep gz enC thr v).1 = v := by
  rcases compressStep_cases gz enC thr v with ⟨he, hlt⟩ | he
  · rw [he] at h
    exact absurd h (by simp)
  · rw [he]

theorem SetLarge_eq_branches (cfg : Config) (gz : Gzip) (s : Store)
    (key value : Bytes) (hen : cfg.enabled = true)
    (hlen : value.length ≤ (getLargeValueConfig cfg).1) :
    SetLarge cfg gz s key value =
      (if (getLargeValueConfig cfg).2.2.2.2 ∧
          (compressStep gz (getLargeValueConfig cfg).2.2.2.1
            (getLargeValueConfig cfg).2.2.1 value).1.length >
            (getLargeValueConfig cfg).2.1 then
        (.ok (), chunkedStore cfg s key
          (compressStep gz (getLargeValueConfig cfg).2.2.2.1
            (getLargeValueConfig cfg).2.2.1 value).1
          (compressStep gz (getLargeValueConfig cfg).2.2.2.1
            (getLargeValueConfig cfg).2.2.1 value).2
          (getLargeValueConfig cfg).2.1)
      else
        setWithMetadata cfg s key
          (compressStep gz (getLargeValueConfig cfg).2.2.2.1
            (getLargeValueConfig cfg).2.2.1 value).1
          (compressStep gz (getLargeValueConfig cfg).2.2.2.1
            (getLargeValueConfig cfg).2.2.1 value).2
          false) := by
  rw [SetLarge]
  simp only [checkClient, hen, if_true]
  rw [if_neg (by omega)]
  simp only [setChunked_eq]

theorem SetLarge_ok (cfg : Config) (gz : Gzip) (s : Store) (key value : Bytes)
    (hen : cfg.enabled = true)
    (hlen : value.length ≤ (getLargeValueConfig cfg).1) :
    (SetLarge cfg gz s key value).1 = .ok () := by
  rw [SetLarge_eq_branches cfg gz s key value hen hlen]
  split_ifs with h
  · rfl
  · cases hc : (compressStep gz (getLargeValueConfig cfg).2.2.2.1
      (getLargeValueConfig cfg).2.2.1 value).2 with
    | true => rw [setWithMetadata_compressed_eq]
    | false => rw [setWithMetadata_plain_eq _ _ _ _ hen]

/-- C1: for every byte payload `p` with `0 ≤ len p ≤ maxValueSize`, storing
`p` with `SetLarge` and then reading it back with `GetLarge` on a key with
no stale metadata returns exactly `p`, in all four combinations of
{compressed, uncompressed} × {chunked, unchunked} (the compression and
chunking branches are decided inside `SetLarge` by the payload's size
against `compressThreshold` and `chunkSize`). -/
theorem setLarge_getLarge_roundtrip (cfg : Config) (gz : Gzip) (s : Store)
    (key value : Bytes) (hen : cfg.enabled = true)
    (hinv : ∀ b, gz.decomp (gz.comp b) = some b)
    (hmeta : s (metaKeyOf key) = none)
    (hlen : value.length ≤ (getLargeValueConfig cfg).1) :
    (SetLarge cfg gz s key value).1 = .ok () ∧
      GetLarge cfg gz (SetLarge cfg gz s key value).2 key = .ok value := by
  refine ⟨SetLarge_ok cfg gz s key value hen hlen, ?_⟩
  rw [SetLarge_eq_branches cfg gz s key value hen hlen]
  split_ifs with h
  · rw [getLarge_chunkedStore cfg gz s key _ _ _
      (getLargeValueConfig_chunkSize_pos cfg) hen]
    cases hc : (compressStep gz (getLargeValueConfig cfg).2.2.2.1
        (getLargeValueConfig cfg).2.2.1 value).2 with
    | true =>
      obtain ⟨h1, _⟩ := compressStep_snd_true _ _ _ _ hc
      rw [if_pos rfl, h1, hinv value]
    | false =>
      rw [if_neg (by simp), compressStep_snd_false _ _ _ _ hc]
  · cases hc : (compressStep gz (getLargeValueConfig cfg).2.2.2.1
        (getLargeValueConfig cfg).2.2.1 value).2 with
    | true =>
      obtain ⟨h1, _⟩ := compressStep_snd_true _ _ _ _ hc
      rw [setWithMetadata_compressed_eq]
      rw [getLarge_singleStore cfg gz s key _ hen, h1, hinv value]
    | false =>
      rw [compressStep_snd_false _ _ _ _ hc, setWithMetadata_plain_eq _ _ _ _ hen]
      exact getLarge_plainStore cfg gz s key value hen hmeta

/-- C1 witness: a concrete instantiation (3-byte payload, identity-style
codec, empty store) discharging every hypothesis of the round-trip
theorem. -/
theorem setLarge_getLarge_roundtrip_witness :
    let cfg : Config := ⟨true, 10, ⟨100, 4, 6, true, true⟩⟩
    let gz : Gzip := ⟨fun b => 0 :: b,
      fun b => match b with | 0 :: r => some r | _ => none⟩
    let s : Store := fun _ => none
    (SetLarge cfg gz s (asc "k") [1, 2, 3]).1 = .ok () ∧
      GetLarge cfg gz (SetLarge cfg gz s (asc "k") [1, 2, 3]).2 (asc "k") =
        .ok [1, 2, 3] :=
  setLarge_getLarge_roundtrip _ _ _ _ _ rfl (fun _ => rfl) rfl (by decide)

/-- C2: a value of exactly `maxValueSize` bytes is accepted by `SetLarge`,
while a value one byte over fails with the value-too-large error and
leaves the store untouched (no base key, metadata key or chunk key is
written). -/
theorem setLarge_maxValueSize_boundary (cfg : Config) (gz : Gzip) (s : Store)
    (key value : Bytes) (hen : cfg.enabled = true) :
    (value.length = (getLargeValueConfig cfg).1 →
      (SetLarge cfg gz s key value).1 = .ok ()) ∧
    (value.length = (getLargeValueConfig cfg).1 + 1 →
      (SetLarge cfg gz s key value).1 =
          .error (.tooLarge value.length (getLargeValueConfig cfg).1) ∧
        (SetLarge cfg gz s key value).2 = s) := by
  constructor
  · intro hlen
    exact SetLarge_ok cfg gz s key value hen (by omega)
  · intro hlen
    rw [SetLarge]
    simp only [checkClient, hen, if_true]
    rw [if_pos (by omega)]
    exact ⟨rfl, rfl⟩

/-- C2 witness: concrete config with `maxValueSize = 100`; a 100-byte value
succeeds and a 101-byte value fails without writing. -/
theorem setLarge_maxValueSize_boundary_witness :
    let cfg : Config := ⟨true, 10, ⟨100, 4, 6, true, true⟩⟩
    let gz : Gzip := ⟨fun b => b, fun b => some b⟩
    let s : Store := fun _ => none
    (SetLarge cfg gz s (asc "k") (List.replicate 100 1)).1 = .ok () ∧
      (SetLarge cfg gz s (asc "k") (List.replicate 101 1)).1 =
          .error (.tooLarge 101 100) ∧
        (SetLarge cfg gz s (asc "k") (List.replicate 101 1)).2 = s := by
  refine ⟨(setLarge_maxValueSize_boundary _ _ _ (asc "k") _ rfl).1 (by decide),
    ?_, ?_⟩
  · exact ((setLarge_maxValueSize_boundary _ _ _ (asc "k") _ rfl).2 (by decide)).1
  · exact ((setLarge_maxValueSize_boundary _ _ _ (asc "k") _ rfl).2 (by decide)).2

/-! ## The stored payload and its recorded compression flag -/

/-- The `(data, compressed)` pair that `GetLarge` recovers from the store
before decompressing: exactly the chunk-dispatch interior of `GetLarge`
(lines 601–620). The `compressed` component comes from the stored
metadata, never from the payload's size. -/
def storedView (cfg : Config) (s : Store) (key : Bytes) :
    Except CErr (Bytes × Bool) :=
  match isChunkedValue s key with
  | .error e => .error e
  | .ok isCh => if isCh then getChunked s key else getWithMetadata cfg s key

theorem storedView_chunkedStore (cfg : Config) (s : Store) (key data : Bytes)
    (c : Bool) (cs : Nat) (hcs : 0 < cs) :
    storedView cfg (chunkedStore cfg s key data c cs) key = .ok (data, c) := by
  rw [storedView, isChunkedValue_chunkedStore]
  simp only [getChunked_chunkedStore cfg s key data c cs hcs]
  rfl

theorem storedView_singleStore (cfg : Config) (s : Store) (key data : Bytes)
    (hen : cfg.enabled = true) :
    storedView cfg (singleStore cfg s key data) key = .ok (data, true) := by
  rw [storedView, isChunkedValue_singleStore]
  simp only [getWithMetadata_singleStore cfg s key data hen]
  rfl

theorem storedView_plainStore (cfg : Config) (s : Store) (key data : Bytes)
    (hen : cfg.enabled = true) (hmeta : s (metaKeyOf key) = none) :
    storedView cfg (rSet s key data cfg.defaultTTL) key = .ok (data, false) := by
  have hm : rSet s key data cfg.defaultTTL (metaKeyOf key) = none := by
    rw [rSet_get_other _ _ _ _ _ (metaKeyOf_ne_base key), hmeta]
  have hg : getWithMetadata cfg (rSet s key data cfg.defaultTTL) key =
      .ok (data, false) := by
    rw [getWithMetadata, hm,
      mGet_of_str cfg _ key data (some cfg.defaultTTL) hen (rSet_get_same _ _ _ _)]
  rw [storedView, isChunkedValue, hm]
  simp only [hg]
  rfl

theorem compressStep_of_above (gz : Gzip) (enC : Bool) (thr : Nat) (v : Bytes)
    (h1 : enC = true) (h2 : v.length > thr) :
    compressStep gz enC thr v =
      if (gz.comp v).length < v.length then (gz.comp v, true)
      else (v, false) := by
  unfold compressStep
  rw [if_pos ⟨h1, h2⟩]

/-- C3: for every payload above `compressThreshold` (with compression
enabled and the payload within `maxValueSize`), `SetLarge` stores the
compressed form exactly when the compressed size is strictly smaller than
the original (otherwise the original bytes), and the compressed flag that
the readers recover from the stored metadata equals that decision — the
decision is recorded in metadata, not inferred from the stored size. -/
theorem setLarge_compression_decision (cfg : Config) (gz : Gzip) (s : Store)
    (key value : Bytes) (hen : cfg.enabled = true)
    (henC : (getLargeValueConfig cfg).2.2.2.1 = true)
    (hthr : value.length > (getLargeValueConfig cfg).2.2.1)
    (hlen : value.length ≤ (getLargeValueConfig cfg).1)
    (hmeta : s (metaKeyOf key) = none) :
    storedView cfg (SetLarge cfg gz s key value).2 key =
      .ok (if (gz.comp value).length < value.length then gz.comp value
             else value,
           decide ((gz.comp value).length < value.length)) := by
  have hpc := compressStep_of_above gz (getLargeValueConfig cfg).2.2.2.1
    (getLargeValueConfig cfg).2.2.1 value henC hthr
  by_cases hlt : (gz.comp value).length < value.length
  · rw [if_pos hlt] at hpc
    rw [SetLarge_eq_branches cfg gz s key value hen hlen, hpc]
    split_ifs with hch
    · rw [storedView_chunkedStore cfg s key _ _ _
        (getLargeValueConfig_chunkSize_pos cfg)]
      simp [hlt]
    · rw [setWithMetadata_compressed_eq,
        storedView_singleStore cfg s key _ hen]
      simp [hlt]
  · rw [if_neg hlt] at hpc
    rw [SetLarge_eq_branches cfg gz s key value hen hlen, hpc]
    split_ifs with hch
    · rw [storedView_chunkedStore cfg s key _ _ _
        (getLargeValueConfig_chunkSize_pos cfg)]
      simp [hlt]
    · rw [setWithMetadata_plain_eq _ _ _ _ hen,
        storedView_plainStore cfg s key _ hen hmeta]
      simp [hlt]

/-- C3 witness: a 7-byte payload over a threshold of 6, with a compressor
that shrinks it to 2 bytes: the stored view is the compressed payload with
the compressed flag set. -/
theorem setLarge_compression_decision_witness :
    let cfg : Config := ⟨true, 10, ⟨100, 50, 6, true, true⟩⟩
    let gz : Gzip := ⟨fun b => b.take 2, fun b => some b⟩
    let s : Store := fun _ => none
    storedView cfg (SetLarge cfg gz s (asc "k") [1, 2, 3, 4, 5, 6, 7]).2
        (asc "k") =
      .ok ([1, 2], true) :=
  setLarge_compression_decision _ _ _ _ [1, 2, 3, 4, 5, 6, 7] rfl rfl
    (by decide) (by decide) rfl

/-! ## Chunked read error handling (C4) -/

theorem readChunkList_error (s : Store) (key : Bytes) (l : List Nat)
    (h : ∃ i ∈ l, s (chunkKeyOf key i) = none) :
    ∃ e, readChunkList s key l = .error e := by
  induction l with
  | nil =>
    rcases h with ⟨i, hi, _⟩
    cases hi
  | cons j rest ih =>
    rw [readChunkList]
    cases hj : s (chunkKeyOf key j) with
    | none => exact ⟨.chunkError j, rfl⟩
    | some en =>
      obtain ⟨val, ttl⟩ := en
      cases val with
      | set m => exact ⟨.chunkError j, rfl⟩
      | str v =>
        rcases h with ⟨i, hi, hnone⟩
        rcases List.mem_cons.mp hi with rfl | hmem
        · rw [hj] at hnone
          cases hnone
        · obtain ⟨e, he⟩ := ih ⟨i, hmem, hnone⟩
          exact ⟨e, by rw [he]⟩

theorem getChunked_parse (s : Store) (key : Bytes) (c : Bool) (n : Nat)
    (t : Option Int)
    (hmeta : s (metaKeyOf key) = some ⟨.str (metaChunkedVal c n), t⟩) :
    getChunked s key =
      (match readChunkList s key (List.range n) with
       | .error e => .error e
       | .ok chunks => .ok (chunks.flatten, c)) := by
  rw [getChunked, hmeta]
  simp only [splitColon_metaChunkedVal]
  rw [if_pos (by simp [List.getD])]
  have h2 : ([asc "chunked", ascBool c, decRepr n].getD 2 []) = decRepr n := rfl
  have h1 : ([asc "chunked", ascBool c, decRepr n].getD 1 []) = ascBool c := rfl
  rw [h2, h1, atoi_decRepr, ascBool_eq_true_iff]

theorem isChunkedValue_of_chunkedMeta (s : Store) (key : Bytes) (c : Bool)
    (n : Nat) (t : Option Int)
    (hmeta : s (metaKeyOf key) = some ⟨.str (metaChunkedVal c n), t⟩) :
    isChunkedValue s key = .ok true := by
  rw [isChunkedValue, hmeta]
  simp [isChunked_metaChunkedVal]

/-- C4 (amended): for a chunked stored value whose metadata names `n`
chunks, `getChunked` reassembles chunks `0..n-1` in index order; `GetLarge`
returns an error — never partial data — when any chunk in `[0, n)` is
missing, and when decompression fails after reassembly. (Chunk keys beyond
the metadata's count are ignored, not treated as an error — see the
counterexample.) -/
theorem getLarge_chunked_error_handling (cfg : Config) (gz : Gzip) (s : Store)
    (key : Bytes) (c : Bool) (n : Nat) (t : Option Int)
    (hen : cfg.enabled = true)
    (hmeta : s (metaKeyOf key) = some ⟨.str (metaChunkedVal c n), t⟩) :
    (∀ ch : Nat → Bytes, ∀ tl : Nat → Option Int,
      (∀ i ∈ List.range n, s (chunkKeyOf key i) = some ⟨.str (ch i), tl i⟩) →
      getChunked s key = .ok (((List.range n).map ch).flatten, c)) ∧
    ((∃ i ∈ List.range n, s (chunkKeyOf key i) = none) →
      ∃ e, GetLarge cfg gz s key = .error e) ∧
    (∀ ch : Nat → Bytes, ∀ tl : Nat → Option Int,
      (∀ i ∈ List.range n, s (chunkKeyOf key i) = some ⟨.str (ch i), tl i⟩) →
      c = true → gz.decomp (((List.range n).map ch).flatten) = none →
      GetLarge cfg gz s key = .error .decompressError) := by
  refine ⟨?_, ?_, ?_⟩
  · intro ch tl hch
    rw [getChunked_parse s key c n t hmeta, readChunkList_ok s key ch tl _ hch]
  · intro hmiss
    obtain ⟨e, he⟩ := readChunkList_error s key (List.range n) hmiss
    refine ⟨e, ?_⟩
    have hgc : getChunked s key = .error e := by
      rw [getChunked_parse s key c n t hmeta, he]
    rw [GetLarge]
    simp only [checkClient, hen, if_true]
    rw [isChunkedValue_of_chunkedMeta s key c n t hmeta]
    simp only [hgc]
    rfl
  · intro ch tl hch hc hdec
    subst hc
    have hgc : getChunked s key =
        .ok (((List.range n).map ch).flatten, true) := by
      rw [getChunked_parse s key true n t hmeta,
        readChunkList_ok s key ch tl _ hch]
    rw [GetLarge]
    simp only [checkClient, hen, if_true]
    rw [isChunkedValue_of_chunkedMeta s key true n t hmeta]
    simp only [hgc]
    show (match gz.decomp (((List.range n).map ch).flatten) with
      | none => Except.error CErr.decompressError
      | some d => Except.ok d) = Except.error CErr.decompressError
    rw [hdec]

/-- C4 counterexample: when more chunk keys are present than the metadata's
chunk count names (metadata says 1 chunk, chunks 0 and 1 exist), `GetLarge`
returns the first chunk successfully instead of erroring — metadata/present
disagreement in this direction is not detected. -/
theorem getLarge_extra_chunk_counterexample :
    let cfg : Config := ⟨true, 10, ⟨100, 4, 6, true, true⟩⟩
    let gz : Gzip := ⟨fun b => b, fun b => some b⟩
    let s : Store :=
      upd (upd (upd (fun _ => none)
        (metaKeyOf (asc "k")) (some ⟨.str (metaChunkedVal false 1), none⟩))
        (chunkKeyOf (asc "k") 0) (some ⟨.str [5], none⟩))
        (chunkKeyOf (asc "k") 1) (some ⟨.str [6], none⟩)
    s (metaKeyOf (asc "k")) = some ⟨.str (metaChunkedVal false 1), none⟩ ∧
      (s (chunkKeyOf (asc "k") 1)).isSome = true ∧
      GetLarge cfg gz s (asc "k") = .ok [5] :=
  ⟨rfl, rfl, rfl⟩

/-- C4 witness: a concrete intact two-chunk store on which the amended
theorem's reassembly clause yields the chunks joined in index order. -/
theorem getLarge_chunked_error_handling_witness :
    let cfg : Config := ⟨true, 10, ⟨100, 4, 6, true, true⟩⟩
    let gz : Gzip := ⟨fun b => b, fun b => some b⟩
    let s : Store :=
      upd (upd (upd (fun _ => none)
        (metaKeyOf (asc "k")) (some ⟨.str (metaChunkedVal false 2), none⟩))
        (chunkKeyOf (asc "k") 0) (some ⟨.str [5], none⟩))
        (chunkKeyOf (asc "k") 1) (some ⟨.str [6], none⟩)
    getChunked s (asc "k") = .ok ([5, 6], false) := by
  intro cfg gz s
  have h := (getLarge_chunked_error_handling cfg gz s (asc "k") false 2 none
    rfl rfl).1 (fun i => if i = 0 then [5] else [6]) (fun _ => none)
    (by
      intro i hi
      have hlt : i < 2 := List.mem_range.mp hi
      interval_cases i <;> rfl)
  exact h

/-! ## Dependency invalidation (C6) -/

theorem rDel_get_same (s : Store) (k : Bytes) : rDel s k k = none := by
  simp [rDel, upd]

/-- C6: `InvalidateEntityDependencies` is idempotent: when the dependency
key is absent or holds a set (the reachable states), the call succeeds; a
second call on the resulting store succeeds and changes nothing; and when
the dependency set is absent or empty the first call already has no
observable side effect. -/
theorem invalidateEntityDependencies_idempotent (cfg : Config) (s : Store)
    (entityType entityID : Bytes) (hen : cfg.enabled = true)
    (hdep : ∀ v t, s (depKeyOf entityType entityID) ≠ some ⟨.str v, t⟩) :
    (InvalidateEntityDependencies cfg s entityType entityID).1 = .ok () ∧
    InvalidateEntityDependencies cfg
        (InvalidateEntityDependencies cfg s entityType entityID).2
        entityType entityID =
      (.ok (), (InvalidateEntityDependencies cfg s entityType entityID).2) ∧
    (s (depKeyOf entityType entityID) = none →
      (InvalidateEntityDependencies cfg s entityType entityID).2 = s) ∧
    (∀ t, s (depKeyOf entityType entityID) = some ⟨.set [], t⟩ →
      (InvalidateEntityDependencies cfg s entityType entityID).2 = s) := by
  cases hd : s (depKeyOf entityType entityID) with
  | none =>
    have h1 : InvalidateEntityDependencies cfg s entityType entityID =
        (.ok (), s) := by
      rw [InvalidateEntityDependencies]
      simp only [checkClient, hen, if_true]
      rw [rSMembers, hd]
      rfl
    rw [h1]
    exact ⟨rfl, h1, fun _ => rfl, fun _ _ => rfl⟩
  | some en =>
    obtain ⟨val, ttl⟩ := en
    cases val with
    | str v => exact absurd hd (hdep v ttl)
    | set l =>
      cases hl : l with
      | nil =>
        have h1 : InvalidateEntityDependencies cfg s entityType entityID =
            (.ok (), s) := by
          rw [InvalidateEntityDependencies]
          simp only [checkClient, hen, if_true]
          rw [rSMembers, hd, hl]
          rfl
        rw [h1]
        refine ⟨rfl, h1, fun hc => ?_, fun _ _ => rfl⟩
        simp at hc
      | cons k0 ks =>
        have h1 : InvalidateEntityDependencies cfg s entityType entityID =
            (.ok (), rDel ((k0 :: ks).foldl
              (fun st k => (DeleteLarge cfg st k).2) s)
              (depKeyOf entityType entityID)) := by
          rw [InvalidateEntityDependencies]
          simp only [checkClient, hen, if_true]
          rw [rSMembers, hd, hl]
          simp
        rw [h1]
        have hnone : rDel ((k0 :: ks).foldl
            (fun st k => (DeleteLarge cfg st k).2) s)
            (depKeyOf entityType entityID) (depKeyOf entityType entityID) =
            none := rDel_get_same _ _
        have h2 : InvalidateEntityDependencies cfg
            (rDel ((k0 :: ks).foldl (fun st k => (DeleteLarge cfg st k).2) s)
              (depKeyOf entityType entityID)) entityType entityID =
            (.ok (), rDel ((k0 :: ks).foldl
              (fun st k => (DeleteLarge cfg st k).2) s)
              (depKeyOf entityType entityID)) := by
          rw [InvalidateEntityDependencies]
          simp only [checkClient, hen, if_true]
          rw [rSMembers, hnone]
          rfl
        refine ⟨rfl, h2, fun hc => ?_, fun t hc => ?_⟩
        · simp at hc
        · simp at hc

/-- C6 witness: a concrete store with one dependent cache key; the call
succeeds, a second call is a no-op on the already-cleared state. -/
theorem invalidateEntityDependencies_idempotent_witness :
    let cfg : Config := ⟨true, 10, ⟨100, 4, 6, true, true⟩⟩
    let dk : Bytes := depKeyOf (asc "users") (asc "1")
    let s : Store := upd (upd (fun _ => none) dk
      (some ⟨.set [asc "ck1"], some 20⟩)) (asc "ck1") (some ⟨.str [1], some 10⟩)
    (InvalidateEntityDependencies cfg s (asc "users") (asc "1")).1 = .ok () ∧
    InvalidateEntityDependencies cfg
        (InvalidateEntityDependencies cfg s (asc "users") (asc "1")).2
        (asc "users") (asc "1") =
      (.ok (), (InvalidateEntityDependencies cfg s (asc "users") (asc "1")).2) := by
  intro cfg dk s
  have h := invalidateEntityDependencies_idempotent cfg s (asc "users")
    (asc "1") rfl (by
      intro v t hcontra
      rw [show s (depKeyOf (asc "users") (asc "1")) =
        some ⟨.set [asc "ck1"], some 20⟩ from rfl] at hcontra
      simp at hcontra)
  exact ⟨h.1, h.2.1⟩

/-! ## Dependency-set TTLs (C7) -/

/-- The TTL recorded for a key (`none` when the key is absent or has no
expiry set). -/
def ttlOf (s : Store) (k : Bytes) : Option Int :=
  (s k).bind Entry.ttl

/-- The key a pipelined command writes to. -/
def pcmdKey : PCmd → Bytes
  | .pset k _ _ => k
  | .psadd k _ => k
  | .pexpire k _ => k

theorem upd_get_same (s : Store) (k : Bytes) (e : Option Entry) :
    upd s k e k = e := by
  simp [upd]

theorem upd_get_other (s : Store) (k : Bytes) (e : Option Entry) (k' : Bytes)
    (h : k' ≠ k) : upd s k e k' = s k' := by
  simp [upd, h]

theorem ttlOf_of_some (s : Store) (k : Bytes) (en : Entry)
    (h : s k = some en) : ttlOf s k = en.ttl := by
  rw [ttlOf, h]
  rfl

theorem ttlOf_of_none (s : Store) (k : Bytes) (h : s k = none) :
    ttlOf s k = none := by
  rw [ttlOf, h]
  rfl

theorem rSAdd_eq_of_none (s : Store) (k m : Bytes) (h : s k = none) :
    rSAdd s k m = .ok (upd s k (some ⟨.set [m], none⟩)) := by
  rw [rSAdd, h]

theorem rSAdd_eq_of_str (s : Store) (k m v : Bytes) (tl : Option Int)
    (h : s k = some ⟨.str v, tl⟩) : rSAdd s k m = .error .wrongType := by
  rw [rSAdd, h]

theorem rSAdd_eq_of_set (s : Store) (k m : Bytes) (l : List Bytes)
    (tl : Option Int) (h : s k = some ⟨.set l, tl⟩) :
    rSAdd s k m =
      .ok (upd s k (some ⟨.set (if m ∈ l then l else l ++ [m]), tl⟩)) := by
  rw [rSAdd, h]

theorem rExpire_eq_of_none (s : Store) (k : Bytes) (t : Int) (h : s k = none) :
    rExpire s k t = s := by
  rw [rExpire, h]

theorem rExpire_eq_of_some (s : Store) (k : Bytes) (t : Int) (en : Entry)
    (h : s k = some en) : rExpire s k t = upd s k (some ⟨en.val, some t⟩) := by
  rw [rExpire, h]

theorem pExecStep_other (st : Option CErr × Store) (c : PCmd) (k' : Bytes)
    (h : pcmdKey c ≠ k') : (pExecStep st c).2 k' = st.2 k' := by
  cases c with
  | pset k v t => exact rSet_get_other _ _ _ _ _ (fun he => h he.symm)
  | pexpire k t =>
    show rExpire st.2 k t k' = st.2 k'
    cases hs : st.2 k with
    | none => rw [rExpire_eq_of_none st.2 k t hs]
    | some en =>
      rw [rExpire_eq_of_some st.2 k t en hs]
      exact upd_get_other _ _ _ _ (fun he => h he.symm)
  | psadd k m =>
    simp only [pExecStep]
    cases hs : st.2 k with
    | none =>
      rw [rSAdd_eq_of_none st.2 k m hs]
      exact upd_get_other _ _ _ _ (fun he => h he.symm)
    | some en =>
      obtain ⟨val, tl⟩ := en
      cases val with
      | str v => rw [rSAdd_eq_of_str st.2 k m v tl hs]
      | set l =>
        rw [rSAdd_eq_of_set st.2 k m l tl hs]
        exact upd_get_other _ _ _ _ (fun he => h he.symm)

theorem foldl_pExecStep_other (cmds : List PCmd) (k' : Bytes)
    (h : ∀ c ∈ cmds, pcmdKey c ≠ k') :
    ∀ st : Option CErr × Store,
      (cmds.foldl pExecStep st).2 k' = st.2 k' := by
  induction cmds with
  | nil => intro st; rfl
  | cons c cs ih =>
    intro st
    rw [List.foldl_cons, ih (fun a ha => h a (List.mem_cons_of_mem c ha)),
      pExecStep_other st c k' (h c (List.mem_cons_self c cs))]

/-- A command produced by the dependency-registration loop: an `SADD` or an
`EXPIRE` to exactly `DefaultTTL*2`. -/
def isLinkCmd (cfg : Config) : PCmd → Prop
  | .psadd _ _ => True
  | .pexpire _ t => t = cfg.defaultTTL * 2
  | .pset _ _ _ => False

theorem depCmds_all_link (cfg : Config) (deps : List (Bytes × List Bytes))
    (ck : Bytes) : ∀ c ∈ depCmds cfg deps ck, isLinkCmd cfg c := by
  intro c hc
  rw [depCmds] at hc
  obtain ⟨p, _, hc2⟩ := List.mem_flatMap.mp hc
  obtain ⟨id, _, hc3⟩ := List.mem_flatMap.mp hc2
  simp only [List.mem_cons, List.mem_singleton, List.not_mem_nil,
    or_false] at hc3
  rcases hc3 with rfl | rfl
  · trivial
  · rfl

/-- Link commands preserve "this key's TTL is `DefaultTTL*2`": `SADD` never
changes an existing entry's TTL and `EXPIRE` re-sets it to the same value. -/
theorem linkCmds_preserve_ttl (cfg : Config) (cmds : List PCmd)
    (hl : ∀ c ∈ cmds, isLinkCmd cfg c) (k : Bytes) :
    ∀ st : Option CErr × Store, ttlOf st.2 k = some (cfg.defaultTTL * 2) →
      ttlOf (cmds.foldl pExecStep st).2 k = some (cfg.defaultTTL * 2) := by
  induction cmds with
  | nil => intro st h; exact h
  | cons c cs ih =>
    intro st h
    rw [List.foldl_cons]
    refine ih (fun a ha => hl a (List.mem_cons_of_mem c ha)) _ ?_
    have hlc := hl c (List.mem_cons_self c cs)
    by_cases hk : pcmdKey c = k
    · cases c with
      | pset kc v t => exact absurd hlc id
      | pexpire kc t =>
        rw [pcmdKey] at hk
        subst hk
        cases hs : st.2 kc with
        | none => rw [ttlOf_of_none st.2 kc hs] at h; cases h
        | some en =>
          show ttlOf (rExpire st.2 kc t) kc = some (cfg.defaultTTL * 2)
          rw [rExpire_eq_of_some st.2 kc t en hs,
            ttlOf_of_some _ _ _ (upd_get_same st.2 kc _)]
          exact congrArg some hlc
      | psadd kc m =>
        rw [pcmdKey] at hk
        subst hk
        simp only [pExecStep]
        cases hs : st.2 kc with
        | none => rw [ttlOf_of_none st.2 kc hs] at h; cases h
        | some en =>
          obtain ⟨val, tl⟩ := en
          rw [ttlOf_of_some st.2 kc ⟨val, tl⟩ hs] at h
          cases val with
          | str v =>
            rw [rSAdd_eq_of_str st.2 kc m v tl hs]
            rw [ttlOf_of_some st.2 kc ⟨.str v, tl⟩ hs]
            exact h
          | set l =>
            rw [rSAdd_eq_of_set st.2 kc m l tl hs,
              ttlOf_of_some _ _ _ (upd_get_same st.2 kc _)]
            exact h
    · rw [ttlOf, pExecStep_other st c k hk]
      exact h

theorem rExpire_ttl_of_isSome (s : Store) (k : Bytes) (t : Int)
    (h : (s k).isSome = true) : ttlOf (rExpire s k t) k = some t := by
  cases hs : s k with
  | none => rw [hs] at h; cases h
  | some en =>
    rw [rExpire_eq_of_some s k t en hs,
      ttlOf_of_some _ _ _ (upd_get_same s k _)]

theorem psadd_isSome (st : Option CErr × Store) (k m : Bytes) :
    (((pExecStep st (.psadd k m)).2) k).isSome = true := by
  simp only [pExecStep]
  cases hs : st.2 k with
  | none =>
    rw [rSAdd_eq_of_none st.2 k m hs]
    show ((upd st.2 k (some ⟨.set [m], none⟩)) k).isSome = true
    rw [upd_get_same]
    rfl
  | some en =>
    obtain ⟨val, tl⟩ := en
    cases val with
    | str v =>
      rw [rSAdd_eq_of_str st.2 k m v tl hs]
      show ((st.2 k).isSome) = true
      rw [hs]
      rfl
    | set l =>
      rw [rSAdd_eq_of_set st.2 k m l tl hs]
      show ((upd st.2 k
        (some ⟨.set (if m ∈ l then l else l ++ [m]), tl⟩)) k).isSome = true
      rw [upd_get_same]
      rfl

/-- After `SADD k; EXPIRE k t`, the key `k` exists and its TTL is `t`. -/
theorem sadd_expire_ttl (st : Option CErr × Store) (k m : Bytes) (t : Int) :
    ttlOf (pExecStep (pExecStep st (.psadd k m)) (.pexpire k t)).2 k = some t := by
  show ttlOf (rExpire (pExecStep st (.psadd k m)).2 k t) k = some t
  exact rExpire_ttl_of_isSome _ _ _ (psadd_isSome st k m)

/-- The registration commands for a single `(entityType, ids)` group are
all link commands. -/
theorem innerCmds_all_link (cfg : Config) (et ck : Bytes) (ids : List Bytes) :
    ∀ c ∈ (ids.flatMap fun j =>
      [PCmd.psadd (depKeyOf et j) ck,
       PCmd.pexpire (depKeyOf et j) (cfg.defaultTTL * 2)]), isLinkCmd cfg c := by
  intro c hc
  obtain ⟨j, _, hcm⟩ := List.mem_flatMap.mp hc
  simp only [List.mem_cons, List.mem_singleton, List.not_mem_nil,
    or_false] at hcm
  rcases hcm with rfl | rfl
  · trivial
  · rfl

/-- Registering one `(entityType, ids)` group leaves every mentioned
dependency key with TTL exactly `DefaultTTL*2`. -/
theorem innerCmds_ttl (cfg : Config) (et ck : Bytes) :
    ∀ (ids : List Bytes), ∀ id ∈ ids, ∀ st : Option CErr × Store,
      ttlOf (((ids.flatMap fun j =>
        [PCmd.psadd (depKeyOf et j) ck,
         PCmd.pexpire (depKeyOf et j) (cfg.defaultTTL * 2)])).foldl
          pExecStep st).2 (depKeyOf et id) = some (cfg.defaultTTL * 2) := by
  intro ids
  induction ids with
  | nil => intro id hid; cases hid
  | cons j rest ih =>
    intro id hid st
    rw [List.flatMap_cons, List.foldl_append, List.foldl_cons, List.foldl_cons]
    by_cases hmem : id ∈ rest
    · exact ih id hmem _
    · have hj : id = j := by
        rcases List.mem_cons.mp hid with h | h
        · exact h
        · exact absurd h hmem
      subst hj
      refine linkCmds_preserve_ttl cfg _ (innerCmds_all_link cfg et ck rest)
        _ _ ?_
      exact sadd_expire_ttl _ _ _ _

/-- Executing the dependency-registration commands leaves every registered
dependency key with TTL exactly `DefaultTTL*2`. -/
theorem depCmds_ttl (cfg : Config) (deps : List (Bytes × List Bytes))
    (ck : Bytes) (p : Bytes × List Bytes) (hp : p ∈ deps) (id : Bytes)
    (hid : id ∈ p.2) :
    ∀ st : Option CErr × Store,
      ttlOf ((depCmds cfg deps ck).foldl pExecStep st).2 (depKeyOf p.1 id) =
        some (cfg.defaultTTL * 2) := by
  induction deps with
  | nil => cases hp
  | cons q rest ih =>
    intro st
    have hq : depCmds cfg (q :: rest) ck =
        (q.2.flatMap fun j =>
          [PCmd.psadd (depKeyOf q.1 j) ck,
           PCmd.pexpire (depKeyOf q.1 j) (cfg.defaultTTL * 2)]) ++
        depCmds cfg rest ck := by
      rw [depCmds, List.flatMap_cons, ← depCmds]
    rw [hq, List.foldl_append]
    by_cases hmem : p ∈ rest
    · exact ih hmem _
    · have hpq : p = q := by
        rcases List.mem_cons.mp hp with h | h
        · exact h
        · exact absurd h hmem
      subst hpq
      refine linkCmds_preserve_ttl cfg _ (depCmds_all_link cfg rest ck) _ _ ?_
      exact innerCmds_ttl cfg p.1 ck p.2 id hid _

/-- C7 (amended): every dependency-link operation refreshes the affected
dependency set's TTL to exactly `DefaultTTL*2` — twice the manager's
default TTL.  `SetWithDependencies` stores the referenced value with
`DefaultTTL` in the same pipeline, so there the dependency record's TTL is
exactly twice the value's; a value stored earlier with a custom TTL is not
consulted (see the counterexample). -/
theorem dependencyLink_ttl (cfg : Config) (hen : cfg.enabled = true) :
    (∀ (s : Store) (et id ck : Bytes),
      (AddDependency cfg s et id ck).1 = .ok () →
      ttlOf (AddDependency cfg s et id ck).2 (depKeyOf et id) =
        some (cfg.defaultTTL * 2)) ∧
    (∀ (s : Store) (deps : List (Bytes × List Bytes)) (ck : Bytes)
      (p : Bytes × List Bytes), p ∈ deps → ∀ id ∈ p.2,
      ttlOf (AddMultipleDependencies cfg s deps ck).2 (depKeyOf p.1 id) =
        some (cfg.defaultTTL * 2)) ∧
    (∀ (s : Store) (deps : List (Bytes × List Bytes)) (ck v : Bytes)
      (p : Bytes × List Bytes), p ∈ deps → ∀ id ∈ p.2,
      ttlOf (SetWithDependencies cfg s ck v deps).2 (depKeyOf p.1 id) =
        some (cfg.defaultTTL * 2)) ∧
    (∀ (s : Store) (deps : List (Bytes × List Bytes)) (ck v : Bytes),
      (∀ p ∈ deps, ∀ id ∈ p.2, depKeyOf p.1 id ≠ ck) →
      ttlOf (SetWithDependencies cfg s ck v deps).2 ck =
        some cfg.defaultTTL) := by
  refine ⟨?_, ?_, ?_, ?_⟩
  · intro s et id ck hok
    rw [AddDependency] at hok ⊢
    simp only [checkClient, hen, if_true] at hok ⊢
    cases hs : rSAdd s (depKeyOf et id) ck with
    | error e => rw [hs] at hok; cases hok
    | ok s1 =>
      show ttlOf (rExpire s1 (depKeyOf et id) (cfg.defaultTTL * 2))
        (depKeyOf et id) = some (cfg.defaultTTL * 2)
      refine rExpire_ttl_of_isSome _ _ _ ?_
      cases hk : s (depKeyOf et id) with
      | none =>
        rw [rSAdd_eq_of_none s (depKeyOf et id) ck hk] at hs
        cases hs
        rw [upd_get_same]
        rfl
      | some en =>
        obtain ⟨val, tl⟩ := en
        cases val with
        | str v =>
          rw [rSAdd_eq_of_str s (depKeyOf et id) ck v tl hk] at hs
          cases hs
        | set l =>
          rw [rSAdd_eq_of_set s (depKeyOf et id) ck l tl hk] at hs
          cases hs
          rw [upd_get_same]
          rfl
  · intro s deps ck p hp id hid
    rw [AddMultipleDependencies]
    simp only [checkClient, hen, if_true]
    exact depCmds_ttl cfg deps ck p hp id hid (none, s)
  · intro s deps ck v p hp id hid
    rw [SetWithDependencies]
    simp only [checkClient, hen, if_true]
    show ttlOf ((depCmds cfg deps ck).foldl pExecStep
      (pExecStep (none, s) (.pset ck v cfg.defaultTTL))).2 (depKeyOf p.1 id) =
      some (cfg.defaultTTL * 2)
    exact depCmds_ttl cfg deps ck p hp id hid _
  · intro s deps ck v hck
    rw [SetWithDependencies]
    simp only [checkClient, hen, if_true]
    show ttlOf ((depCmds cfg deps ck).foldl pExecStep
      (pExecStep (none, s) (.pset ck v cfg.defaultTTL))).2 ck =
      some cfg.defaultTTL
    rw [ttlOf, foldl_pExecStep_other _ ck ?hkeys]
    case hkeys =>
      intro c hc
      obtain ⟨q, hq, hc2⟩ := List.mem_flatMap.mp hc
      obtain ⟨j, hj, hc3⟩ := List.mem_flatMap.mp hc2
      simp only [List.mem_cons, List.mem_singleton, List.not_mem_nil,
        or_false] at hc3
      rcases hc3 with rfl | rfl
      · exact hck q hq j hj
      · exact hck q hq j hj
    show ((rSet s ck v cfg.defaultTTL) ck).bind Entry.ttl = some cfg.defaultTTL
    rw [rSet_get_same]
    rfl

/-- C7 counterexample: a value stored with a custom TTL of `7` while
`DefaultTTL` is `10`: `AddDependency` sets the dependency set's TTL to
`20 = 2 × DefaultTTL`, which is not twice the referenced value's TTL. -/
theorem dependencyLink_ttl_counterexample :
    let cfg : Config := ⟨true, 10, ⟨100, 4, 6, true, true⟩⟩
    let s0 : Store := (mSetWithTTL cfg (fun _ => none) (asc "v") [1] 7).2
    let r : Store := (AddDependency cfg s0 (asc "users") (asc "1") (asc "v")).2
    ttlOf r (asc "v") = some 7 ∧
      ttlOf r (depKeyOf (asc "users") (asc "1")) = some 20 ∧
      ¬((20 : Int) = 2 * 7) :=
  ⟨rfl, rfl, by decide⟩

/-- C7 witness: on the empty store, `AddDependency` with `DefaultTTL = 10`
leaves the dependency set with TTL `20`. -/
theorem dependencyLink_ttl_witness :
    let cfg : Config := ⟨true, 10, ⟨100, 4, 6, true, true⟩⟩
    ttlOf (AddDependency cfg (fun _ => none) (asc "u") (asc "1") (asc "ck")).2
        (depKeyOf (asc "u") (asc "1")) = some 20 :=
  (dependencyLink_ttl _ rfl).1 (fun _ => none) (asc "u") (asc "1") (asc "ck") rfl

/-! ## Repository layer (pkg/repository/interface.go)

Strings stay Lean `String`s here (no byte-level parsing is needed).  The
external collaborators (Redis cache, GORM database) are modelled by
passing each call's outcome as an argument, and every operation returns —
alongside its Go results — a trace of which external calls it performed,
so that "no cache access", "no database operation" and "no invalidation"
are stated as facts about the trace. -/

namespace Repository

/-- The cache-key constants of the repository package
(`cacheKeyPrefix`, `cacheKeySeparator`). -/
def cacheKeyPfx : String := "sql4go"

def cacheKeySep : String := ":"

/-- `generateCacheKey`: key for simple operations with database isolation.
When the suffix is empty the trailing separator is omitted. -/
def generateCacheKey (dbName tableName operation suffix : String) : String :=
  if suffix = "" then
    cacheKeyPfx ++ cacheKeySep ++ dbName ++ cacheKeySep ++ tableName ++
      cacheKeySep ++ operation
  else
    cacheKeyPfx ++ cacheKeySep ++ dbName ++ cacheKeySep ++ tableName ++
      cacheKeySep ++ operation ++ cacheKeySep ++ suffix

/-- Outcome of the `r.redis.GetValue` call. -/
inductive CacheGetRes (T : Type)
  | hit (v : T)
  | errKeyNotFound
  | errOther
deriving DecidableEq

/-- Outcome of the GORM `First`/`Find` call. -/
inductive DbFindRes (T : Type)
  | found (v : T)
  | notFound
  | dbErr
deriving DecidableEq

/-- The repository-level errors the modelled operations construct. -/
inductive RepoErr
  | nilInput
  | ctxCancelled
  | dbError
deriving DecidableEq

/-- Result and call trace of `FindByID`. -/
structure FindOut (T : Type) where
  result : Except RepoErr (Option T)
  cacheHit : Bool
  cacheStored : Bool
  cacheGetCalled : Bool
  cacheSetCalled : Bool
  dbCalled : Bool

/-- The database phase of `FindByID` (query, then best-effort cache
store): `ErrRecordNotFound` is not an error, other failures are. -/
def findDbPhase {T : Type} (hasRedis : Bool) (dbRes : DbFindRes T)
    (cacheSetOk : Bool) (cacheGetCalled : Bool) : FindOut T :=
  match dbRes with
  | .notFound =>
    { result := .ok none, cacheHit := false, cacheStored := false,
      cacheGetCalled := cacheGetCalled, cacheSetCalled := false,
      dbCalled := true }
  | .dbErr =>
    { result := .error .dbError, cacheHit := false, cacheStored := false,
      cacheGetCalled := cacheGetCalled, cacheSetCalled := false,
      dbCalled := true }
  | .found v =>
    if hasRedis then
      { result := .ok (some v), cacheHit := false, cacheStored := cacheSetOk,
        cacheGetCalled := cacheGetCalled, cacheSetCalled := true,
        dbCalled := true }
    else
      { result := .ok (some v), cacheHit := false, cacheStored := false,
        cacheGetCalled := cacheGetCalled, cacheSetCalled := false,
        dbCalled := true }

/-- `FindByID` (lines 147–195): nil-id validation, context check, cache
first (any cache error falls through to the database), then the database
with best-effort re-caching. -/
def FindByID {T : Type} (hasRedis : Bool) (ctxCancelled : Bool)
    (id : Option String) (cacheRes : CacheGetRes T) (dbRes : DbFindRes T)
    (cacheSetOk : Bool) : FindOut T :=
  match id with
  | none =>
    { result := .error .nilInput, cacheHit := false, cacheStored := false,
      cacheGetCalled := false, cacheSetCalled := false, dbCalled := false }
  | some _ =>
    if ctxCancelled then
      { result := .error .ctxCancelled, cacheHit := false,
        cacheStored := false, cacheGetCalled := false,
        cacheSetCalled := false, dbCalled := false }
    else
      if hasRedis then
        match cacheRes with
        | .hit v =>
          { result := .ok (some v), cacheHit := true, cacheStored := false,
            cacheGetCalled := true, cacheSetCalled := false,
            dbCalled := false }
        | .errKeyNotFound => findDbPhase hasRedis dbRes cacheSetOk true
        | .errOther => findDbPhase hasRedis dbRes cacheSetOk true
      else
        findDbPhase hasRedis dbRes cacheSetOk false

/-- Result and call trace of the write operations (`Create`/`Update`). -/
structure WriteOut where
  err : Option RepoErr
  cacheInvalidated : Bool
  dbCalled : Bool
  invalidateCalled : Bool
deriving DecidableEq

/-- `Create` (lines 454–477): nil-entity validation, database insert, then
best-effort invalidation. -/
def Create (hasRedis : Bool) (entity : Option String) (createOk : Bool) :
    WriteOut :=
  match entity with
  | none =>
    { err := some .nilInput, cacheInvalidated := false, dbCalled := false,
      invalidateCalled := false }
  | some _ =>
    if createOk then
      if hasRedis then
        { err := none, cacheInvalidated := true, dbCalled := true,
          invalidateCalled := true }
      else
        { err := none, cacheInvalidated := false, dbCalled := true,
          invalidateCalled := false }
    else
      { err := some .dbError, cacheInvalidated := false, dbCalled := true,
        invalidateCalled := false }

/-- `Update` (lines 480–503): nil-entity validation, database save, then
best-effort invalidation; a save failure is returned and aborts the
invalidation. -/
def Update (hasRedis : Bool) (entity : Option String) (saveOk : Bool) :
    WriteOut :=
  match entity with
  | none =>
    { err := some .nilInput, cacheInvalidated := false, dbCalled := false,
      invalidateCalled := false }
  | some _ =>
    if saveOk then
      if hasRedis then
        { err := none, cacheInvalidated := true, dbCalled := true,
          invalidateCalled := true }
      else
        { err := none, cacheInvalidated := false, dbCalled := true,
          invalidateCalled := false }
    else
      { err := some .dbError, cacheInvalidated := false, dbCalled := true,
        invalidateCalled := false }

/-- Result and call trace of `Delete`. -/
structure DeleteOut where
  err : Option RepoErr
  cacheInvalidated : Bool
  dbFindCalled : Bool
  dbDeleteCalled : Bool
  invalidateCalled : Bool
deriving DecidableEq

/-- `Delete` (lines 506–539): nil-id validation, lookup-before-delete (a
missing record is success with no invalidation), delete, then best-effort
invalidation. -/
def Delete {T : Type} (hasRedis : Bool) (id : Option String)
    (findRes : DbFindRes T) (deleteOk : Bool) : DeleteOut :=
  match id with
  | none =>
    { err := some .nilInput, cacheInvalidated := false, dbFindCalled := false,
      dbDeleteCalled := false, invalidateCalled := false }
  | some _ =>
    match findRes with
    | .notFound =>
      { err := none, cacheInvalidated := false, dbFindCalled := true,
        dbDeleteCalled := false, invalidateCalled := false }
    | .dbErr =>
      { err := some .dbError, cacheInvalidated := false, dbFindCalled := true,
        dbDeleteCalled := false, invalidateCalled := false }
    | .found _ =>
      if deleteOk then
        if hasRedis then
          { err := none, cacheInvalidated := true, dbFindCalled := true,
            dbDeleteCalled := true, invalidateCalled := true }
        else
          { err := none, cacheInvalidated := false, dbFindCalled := true,
            dbDeleteCalled := true, invalidateCalled := false }
      else
        { err := some .dbError, cacheInvalidated := false,
          dbFindCalled := true, dbDeleteCalled := true,
          invalidateCalled := false }

/-- The accumulated GORM query clauses: what `r.db` carries after a chain
of `Preload`/`Joins`/`Order`/`Limit`/`Offset` calls. -/
structure GormChain where
  preloads : List String
  joins : List (String × List String)
  orders : List String
  limit : Option Int
  offset : Option Int
deriving DecidableEq

/-- The repository fields of `GenericRepository` that the chainable
methods can touch.  In Go each method does `newRepo := *r` (a copy),
modifies only `newRepo.db`, and returns `&newRepo`, never writing through
`r`; the methods are therefore modelled as pure functions on this value. -/
structure GenericRepository where
  db : GormChain
  tableName : String
  primaryKey : String
  dbName : String
  hasRedis : Bool
deriving DecidableEq

/-- `Preload`: appends each association in order (the source loops
`db = db.Preload(association)`). -/
def Preload (r : GenericRepository) (associations : List String) :
    GenericRepository :=
  let newDb := associations.foldl
    (fun d a => { d with preloads := d.preloads ++ [a] }) r.db
  { r with db := newDb }

/-- `Joins`. -/
def Joins (r : GenericRepository) (query : String) (args : List String) :
    GenericRepository :=
  { r with db := { r.db with joins := r.db.joins ++ [(query, args)] } }

/-- `Order`. -/
def Order (r : GenericRepository) (value : String) : GenericRepository :=
  { r with db := { r.db with orders := r.db.orders ++ [value] } }

/-- `Limit`: negative values are normalized to 0. -/
def Limit (r : GenericRepository) (limit : Int) : GenericRepository :=
  let l := if limit < 0 then 0 else limit
  { r with db := { r.db with limit := some l } }

/-- `Offset`: negative values are normalized to 0. -/
def Offset (r : GenericRepository) (offset : Int) : GenericRepository :=
  let o := if offset < 0 then 0 else offset
  { r with db := { r.db with offset := some o } }

/-! ## Claim theorems for the repository layer -/

/-- C5 counterexample: with an empty discriminator `generateCacheKey`
omits the trailing separator entirely, so the key equals the plain
operation key and no explicit separator is appended — and since both "no
discriminator" and "empty-string discriminator" reach the same
`suffix = ""` call, the two keys coincide rather than differ. -/
theorem generateCacheKey_empty_suffix_counterexample :
    generateCacheKey "db1" "users" "count" "" = "sql4go:db1:users:count" ∧
      generateCacheKey "db1" "users" "count" "" ≠ "sql4go:db1:users:count:" :=
  ⟨rfl, by decide⟩

/-- C5 (amended): `generateCacheKey` appends the separator only for a
nonempty discriminator; an absent discriminator and an empty-string
discriminator are the same `suffix = ""` call and produce the identical
key, and any nonempty discriminator produces a key distinct from it. -/
theorem generateCacheKey_nonempty_suffix_ne (dbName tableName operation
    suffix : String) (h : suffix ≠ "") :
    generateCacheKey dbName tableName operation suffix ≠
      generateCacheKey dbName tableName operation "" := by
  intro he
  rw [generateCacheKey, generateCacheKey, if_neg h, if_pos rfl] at he
  have hdata := congrArg String.data he
  simp only [String.data_append] at hdata
  have hlen := congrArg List.length hdata
  simp only [List.length_append] at hlen
  have hpos : 0 < suffix.data.length := by
    refine List.length_pos.mpr fun hh => h (String.ext ?_)
    rw [hh]
  have hsep : cacheKeySep.data.length = 1 := rfl
  omega

/-- C5 witness: the key for discriminator `"x"` differs from the
empty-discriminator key at a concrete repository. -/
theorem generateCacheKey_nonempty_suffix_ne_witness :
    generateCacheKey "db1" "users" "count" "x" ≠
      generateCacheKey "db1" "users" "count" "" :=
  generateCacheKey_nonempty_suffix_ne "db1" "users" "count" "x" (by decide)

/-- C8: a cache error other than key-not-found during the cache check of
`FindByID` is swallowed — the call behaves exactly like a cache miss: it
proceeds to the database and returns the database's result with no
cache-derived error — while a store failure in `Update` is always returned
to the caller and the pending cache invalidation is not performed. -/
theorem cacheError_swallowed_storeError_propagated :
    (∀ (T : Type) (i : String) (dbRes : DbFindRes T) (so : Bool),
      FindByID true false (some i) CacheGetRes.errOther dbRes so =
        FindByID true false (some i) CacheGetRes.errKeyNotFound dbRes so ∧
      (FindByID true false (some i) CacheGetRes.errOther dbRes so).dbCalled =
        true ∧
      (∀ v, dbRes = .found v →
        (FindByID true false (some i) CacheGetRes.errOther dbRes so).result =
          .ok (some v)) ∧
      (dbRes = .notFound →
        (FindByID true false (some i) CacheGetRes.errOther dbRes so).result =
          .ok none)) ∧
    (∀ (hasRedis : Bool) (e : String),
      Update hasRedis (some e) false =
        { err := some .dbError, cacheInvalidated := false, dbCalled := true,
          invalidateCalled := false }) := by
  constructor
  · intro T i dbRes so
    refine ⟨rfl, ?_, ?_, ?_⟩
    · cases dbRes <;> rfl
    · intro v hv
      subst hv
      rfl
    · intro hv
      subst hv
      rfl
  · intro hasRedis e
    rfl

/-- C8 witness: concrete cache failure with the record present in the
database, and a concrete failing save. -/
theorem cacheError_swallowed_storeError_propagated_witness :
    (FindByID true false (some "1") CacheGetRes.errOther
        (DbFindRes.found 7) true).result = .ok (some 7) ∧
      Update true (some "e") false =
        { err := some .dbError, cacheInvalidated := false, dbCalled := true,
          invalidateCalled := false } :=
  ⟨(cacheError_swallowed_storeError_propagated.1 Nat "1"
      (DbFindRes.found 7) true).2.2.1 7 rfl,
    cacheError_swallowed_storeError_propagated.2 true "e"⟩

/-- C9: the public entry points reject nil inputs up front — `FindByID`
and `Delete` with a nil id, and `Create`/`Update` with a nil entity
pointer, return an error immediately with no cache access and no database
operation (every call-trace flag is `false`). -/
theorem nil_inputs_rejected :
    (∀ (T : Type) (hasRedis ctx : Bool) (cacheRes : CacheGetRes T)
      (dbRes : DbFindRes T) (so : Bool),
      FindByID hasRedis ctx none cacheRes dbRes so =
        { result := .error .nilInput, cacheHit := false, cacheStored := false,
          cacheGetCalled := false, cacheSetCalled := false,
          dbCalled := false }) ∧
    (∀ hasRedis createOk : Bool,
      Create hasRedis none createOk =
        { err := some .nilInput, cacheInvalidated := false, dbCalled := false,
          invalidateCalled := false }) ∧
    (∀ hasRedis saveOk : Bool,
      Update hasRedis none saveOk =
        { err := some .nilInput, cacheInvalidated := false, dbCalled := false,
          invalidateCalled := false }) ∧
    (∀ (T : Type) (hasRedis : Bool) (findRes : DbFindRes T) (deleteOk : Bool),
      Delete hasRedis none findRes deleteOk =
        { err := some .nilInput, cacheInvalidated := false,
          dbFindCalled := false, dbDeleteCalled := false,
          invalidateCalled := false }) :=
  ⟨fun _ _ _ _ _ _ => rfl, fun _ _ => rfl, fun _ _ => rfl, fun _ _ _ _ => rfl⟩

/-- C10: each chainable query method returns a repository value whose
non-query fields all equal the original's (only the accumulated GORM
clauses change; in Go the original `*r` is never written through, which
the pure-copy model reflects), and `Limit`/`Offset` normalize negative
arguments to 0. -/
theorem chainable_methods_frame (r : GenericRepository) (assoc : List String)
    (q : String) (args : List String) (v : String) (l o : Int) :
    ((Preload r assoc).tableName = r.tableName ∧
      (Preload r assoc).primaryKey = r.primaryKey ∧
      (Preload r assoc).dbName = r.dbName ∧
      (Preload r assoc).hasRedis = r.hasRedis) ∧
    ((Joins r q args).tableName = r.tableName ∧
      (Joins r q args).primaryKey = r.primaryKey ∧
      (Joins r q args).dbName = r.dbName ∧
      (Joins r q args).hasRedis = r.hasRedis) ∧
    ((Order r v).tableName = r.tableName ∧
      (Order r v).primaryKey = r.primaryKey ∧
      (Order r v).dbName = r.dbName ∧
      (Order r v).hasRedis = r.hasRedis) ∧
    ((Limit r l).tableName = r.tableName ∧
      (Limit r l).primaryKey = r.primaryKey ∧
      (Limit r l).dbName = r.dbName ∧
      (Limit r l).hasRedis = r.hasRedis) ∧
    ((Offset r o).tableName = r.tableName ∧
      (Offset r o).primaryKey = r.primaryKey ∧
      (Offset r o).dbName = r.dbName ∧
      (Offset r o).hasRedis = r.hasRedis) ∧
    ((Limit r l).db.limit = some (if l < 0 then 0 else l) ∧
      (l < 0 → Limit r l = Limit r 0)) ∧
    ((Offset r o).db.offset = some (if o < 0 then 0 else o) ∧
      (o < 0 → Offset r o = Offset r 0)) := by
  refine ⟨⟨rfl, rfl, rfl, rfl⟩, ⟨rfl, rfl, rfl, rfl⟩, ⟨rfl, rfl, rfl, rfl⟩,
    ⟨rfl, rfl, rfl, rfl⟩, ⟨rfl, rfl, rfl, rfl⟩, ⟨rfl, ?_⟩, ⟨rfl, ?_⟩⟩
  · intro hl
    simp [Limit, hl]
  · intro ho
    simp [Offset, ho]

/-- C10 witness: a concrete repository with `Limit (-5)` and
`Offset (-3)`, equal to `Limit 0` and `Offset 0`. -/
theorem chainable_methods_frame_witness :
    let r : GenericRepository :=
      ⟨⟨[], [], [], none, none⟩, "users", "id", "db1", true⟩
    (Limit r (-5)).tableName = r.tableName ∧
      Limit r (-5) = Limit r 0 ∧ Offset r (-3) = Offset r 0 := by
  intro r
  have h := chainable_methods_frame r [] "" [] "" (-5) (-3)
  exact ⟨(h.2.2.2.1).1, h.2.2.2.2.2.1.2 (by decide), h.2.2.2.2.2.2.2 (by decide)⟩

end Repository

end Sql4go
